import Mathlib

/-!
Verification of the jira ticket export scripts.

The repository holds two Python scripts:
* `src/jira-ticket-fetcher.py` — paginated fetcher, recursive field redactor,
  chunked writer;
* `src/jira-fetch/jira-ticket-fetcher.py` — an older copy holding only the
  fetcher and a single-file writer.

This file shallowly embeds those programs: tickets become a JSON value tree
`JVal`, Python dicts become ordered association lists (Python dicts preserve
insertion order and have unique keys), in-place mutation becomes pure
functions returning the updated tree, and the network transport becomes an
explicit response sequence fed to the pagination loop, which is run on fuel
since the Python loop is `while True`.
-/

namespace Jira

/-- A JSON value as produced by `json.loads`: the tickets handled by the
scripts are arbitrary trees of mappings, sequences and scalars.  Mappings are
ordered association lists, matching Python dict insertion order. -/
inductive JVal where
  | obj (entries : List (String × JVal))
  | arr (items : List JVal)
  | str (s : String)
  | num (n : Int)
  | bool (b : Bool)
  | null
deriving Repr

/-- `isinstance(x, dict)`. -/
def JVal.isObj : JVal → Bool
  | JVal.obj _ => true
  | _ => false

/-- `isinstance(x, list)`. -/
def JVal.isArr : JVal → Bool
  | JVal.arr _ => true
  | _ => false

/-- `isinstance(x, (dict, list))`, the guard used by `process_tickets_data`. -/
def JVal.isDictOrList : JVal → Bool
  | JVal.obj _ => true
  | JVal.arr _ => true
  | _ => false

/-- A scalar leaf (string, number, boolean or null). -/
def JVal.isScalar : JVal → Bool
  | JVal.obj _ => false
  | JVal.arr _ => false
  | _ => true

/-- Python `d[k]` / `k in d` on an ordered dict: value of the first (unique)
entry with the given key. -/
def lookupKey (k : String) : List (String × JVal) → Option JVal
  | [] => none
  | e :: es => if e.1 = k then some e.2 else lookupKey k es

/-- Python `del d[k]`: remove the entry with the given key.  Keys of a Python
dict are unique, so filtering every matching entry is the same operation. -/
def delKey (k : String) (es : List (String × JVal)) : List (String × JVal) :=
  es.filter fun e => decide (e.1 ≠ k)

/-- Python `d[k] = v` for a key already present: replace the value stored at
`k`, keeping entry order. -/
def setKey (es : List (String × JVal)) (k : String) (v : JVal) : List (String × JVal) :=
  es.map fun e => if e.1 = k then (k, v) else e

theorem sizeOf_lt_of_lookupKey :
    ∀ {es : List (String × JVal)} {k : String} {v : JVal},
      lookupKey k es = some v → sizeOf v < sizeOf es := by
  intro es
  induction es with
  | nil => intro k v h; simp [lookupKey] at h
  | cons e es ih =>
    intro k v h
    simp only [lookupKey] at h
    split at h
    · cases h
      cases e with
      | mk k' v' => simp; omega
    · have := ih h
      cases e with
      | mk k' v' => simp; omega

mutual
/-- Embedding of `_delete_nested_key_recursive` from
`src/jira-ticket-fetcher.py` (lines 109–143).  The Python function mutates
`current_item` in place; here the updated node is returned.  Case order
follows the source: empty path first, then the list fan-out, then the
dict guard `key_to_process not in current_item`, then the one-segment
deletion, then the recursive descent `current_item[key_to_process]`. -/
def _delete_nested_key_recursive : JVal → List String → JVal
  | current_item, [] => current_item
  | JVal.arr items, path_segments => JVal.arr (delListElems items path_segments)
  | JVal.obj entries, key_to_process :: restSegments =>
      match hv : lookupKey key_to_process entries with
      | none => JVal.obj entries
      | some v =>
          if restSegments = [] then JVal.obj (delKey key_to_process entries)
          else JVal.obj (setKey entries key_to_process
            (_delete_nested_key_recursive v restSegments))
  | current_item, _ :: _ => current_item
termination_by v _ => sizeOf v
decreasing_by
  all_goals simp_wf
  · have := sizeOf_lt_of_lookupKey (by assumption)
    omega

/-- The `for item_in_list in current_item` loop of
`_delete_nested_key_recursive`: recurse into every element that is a dict,
leave every other element untouched. -/
def delListElems : List JVal → List String → List JVal
  | [], _ => []
  | JVal.obj es :: items, path_segments =>
      _delete_nested_key_recursive (JVal.obj es) path_segments
        :: delListElems items path_segments
  | item :: items, path_segments => item :: delListElems items path_segments
termination_by l _ => sizeOf l
decreasing_by all_goals simp_wf <;> omega
end

/-- Modelled from the spec's words (§4.2 nested-path deletion algorithm),
for comparison with `_delete_nested_key_recursive`: if the path is empty do
nothing; on a sequence apply the same deletion to every element that is a
mapping and skip the others; on a mapping stop if the first segment is
absent, delete the key if it is the only remaining segment, and otherwise
recurse into the value at that key with the remaining segments; on any
other node do nothing. -/
def deleteNestedSpec (node : JVal) (path : List String) : JVal :=
  match path with
  | [] => node
  | seg :: restPath =>
    match node with
    | JVal.arr elems =>
        JVal.arr (elems.attach.map fun el =>
          match el with
          | ⟨JVal.obj m, _⟩ => deleteNestedSpec (JVal.obj m) (seg :: restPath)
          | ⟨other, _⟩ => other)
    | JVal.obj m =>
        match hv : lookupKey seg m with
        | none => JVal.obj m
        | some value =>
            if restPath = [] then JVal.obj (delKey seg m)
            else JVal.obj (m.map fun e =>
              if e.1 = seg then (seg, deleteNestedSpec value restPath) else e)
    | other => other
termination_by sizeOf node
decreasing_by
  all_goals simp_wf
  · have := List.sizeOf_lt_of_mem (by assumption)
    simp at this
    omega
  · have := sizeOf_lt_of_lookupKey (by assumption)
    omega

/-- One navigation step inside a ticket tree: a mapping key or a sequence
index. -/
inductive Step where
  | key (k : String)
  | idx (i : Nat)

/-- Read the node of a tree at a position given as a list of steps; `none`
when the position does not exist (wrong key, wrong index, or a step whose
kind does not match the node). -/
def getAt : JVal → List Step → Option JVal
  | v, [] => some v
  | JVal.obj es, Step.key k :: pos =>
      match lookupKey k es with
      | some v => getAt v pos
      | none => none
  | JVal.arr items, Step.idx i :: pos =>
      match items.get? i with
      | some v => getAt v pos
      | none => none
  | _, _ :: _ => none

/-- Positions a nested-path deletion with segments `segs` can reach or
alter: the node itself, positions below a fully matched path (the deleted
entry and everything under it), partial matches of the path (values the
recursion descends through), with sequence fan-out allowed at any point.
A position outside this set is untouched by
`_delete_nested_key_recursive`. -/
def touchesPath : List String → List Step → Bool
  | [], _ => false
  | _ :: _, [] => true
  | segs, Step.idx _ :: pos => touchesPath segs pos
  | [k], Step.key c :: _ => c = k
  | k :: rest, Step.key c :: pos => c = k && touchesPath rest pos

/-! ## The fetcher (`fetch_jira_tickets`) -/

/-- One response of the transport for one paginated search request: either a
successful 2xx response with a parsed JSON body (`issues` and `total` keys
each possibly absent, mirroring `data.get("issues", [])` and
`data.get("total", 0)`), or any failure the `except` clauses catch — HTTP
error status, connection error, timeout, other request error, or an
unparsable body.  All failure arms return `None`, so one constructor models
them. -/
inductive ApiResponse where
  | ok (issues : Option (List JVal)) (total : Option Int)
  | err

/-- The issues list carried by a response (`data.get("issues", [])`); empty
for a failed request. -/
def issuesOf : ApiResponse → List JVal
  | ApiResponse.ok issues _ => issues.getD []
  | ApiResponse.err => []

/-- Result of `fetch_jira_tickets`: the aggregated batch, the `None`
sentinel, or fuel exhaustion of the embedded `while True` loop (not a
program outcome — it marks that more fuel is needed to see one). -/
inductive FetchResult where
  | ok (batch : List JVal)
  | fail
  | diverged

/-- The configuration keys `fetch_jira_tickets` reads.  `fields` and
`max_results` only shape the request payload, which the transport model
abstracts over. -/
structure FetchConfig where
  access_token : Option String
  jira_base_url : Option String
  jql_query : Option String
  fields : Option (List String)
  max_results : Option Nat

/-- Python truthiness of an optional string, as tested by
`all([access_token, jira_base_url, jql_query])`. -/
def pyTruthy : Option String → Bool
  | none => false
  | some s => !s.isEmpty

/-- The `while True` pagination loop of `fetch_jira_tickets` (lines 59–107
of `src/jira-ticket-fetcher.py`), run on fuel.  `api` is the transport: the
response to the i-th request issued.  Alongside the result it returns the
number of requests issued from this state on.  `total_issues_expected` is
`-1` until the first successful response sets it
(`data.get("total", 0)`). -/
def fetchLoop (api : Nat → ApiResponse) :
    Nat → Nat → Nat → Int → List JVal → FetchResult × Nat
  | 0, _, _, _, _ => (FetchResult.diverged, 0)
  | fuel + 1, reqIdx, start_at, total_issues_expected, all_issues =>
    match api reqIdx with
    | ApiResponse.err => (FetchResult.fail, 1)
    | ApiResponse.ok issuesOpt totalOpt =>
      let issues_on_page := issuesOpt.getD []
      let all_issues' := all_issues ++ issues_on_page
      let total' := if total_issues_expected = -1 then totalOpt.getD 0
                    else total_issues_expected
      let start_at' := start_at + issues_on_page.length
      if ((start_at' : Int) ≥ total' ∨ issues_on_page.isEmpty) then
        (FetchResult.ok all_issues', 1)
      else
        let r := fetchLoop api fuel (reqIdx + 1) start_at' total' all_issues'
        (r.1, r.2 + 1)

/-- Embedding of `fetch_jira_tickets` from `src/jira-ticket-fetcher.py`
(lines 22–107).  A missing (falsy) config and missing critical keys return
the `None` sentinel before any request is issued. -/
def fetch_jira_tickets (config : Option FetchConfig) (api : Nat → ApiResponse)
    (fuel : Nat) : FetchResult × Nat :=
  match config with
  | none => (FetchResult.fail, 0)
  | some cfg =>
      if pyTruthy cfg.access_token && pyTruthy cfg.jira_base_url
          && pyTruthy cfg.jql_query then
        fetchLoop api fuel 0 0 (-1) []
      else (FetchResult.fail, 0)

/-- The pagination loop of the older script
`src/jira-fetch/jira-ticket-fetcher.py` (lines 54–99), embedded
independently. -/
def fetchLoopV0 (api : Nat → ApiResponse) :
    Nat → Nat → Nat → Int → List JVal → FetchResult × Nat
  | 0, _, _, _, _ => (FetchResult.diverged, 0)
  | fuel + 1, reqIdx, start_at, total_issues_expected, all_issues =>
    match api reqIdx with
    | ApiResponse.err => (FetchResult.fail, 1)
    | ApiResponse.ok issuesOpt totalOpt =>
      let issues_on_page := issuesOpt.getD []
      let all_issues' := all_issues ++ issues_on_page
      let total' := if total_issues_expected = -1 then totalOpt.getD 0
                    else total_issues_expected
      let start_at' := start_at + issues_on_page.length
      if ((start_at' : Int) ≥ total' ∨ issues_on_page.isEmpty) then
        (FetchResult.ok all_issues', 1)
      else
        let r := fetchLoopV0 api fuel (reqIdx + 1) start_at' total' all_issues'
        (r.1, r.2 + 1)

/-- Embedding of `fetch_jira_tickets` from
`src/jira-fetch/jira-ticket-fetcher.py` (lines 21–101), the older copy. -/
def fetch_jira_tickets_v0 (config : Option FetchConfig)
    (api : Nat → ApiResponse) (fuel : Nat) : FetchResult × Nat :=
  match config with
  | none => (FetchResult.fail, 0)
  | some cfg =>
      if pyTruthy cfg.access_token && pyTruthy cfg.jira_base_url
          && pyTruthy cfg.jql_query then
        fetchLoopV0 api fuel 0 0 (-1) []
      else (FetchResult.fail, 0)

/-- A transport that holds `records` and serves them in order in pages of at
most `P` records: the i-th request gets the records from offset `i * P`,
and every response reports the full matching count as `total`. -/
def pagedApi (records : List JVal) (P : Nat) (i : Nat) : ApiResponse :=
  ApiResponse.ok (some ((records.drop (i * P)).take P))
    (some (records.length : Int))

/-- A config that passes the critical-key check of `fetch_jira_tickets`. -/
def goodConfig : FetchConfig :=
  { access_token := some "token"
    jira_base_url := some "https://jira.example.com"
    jql_query := some "project = EX"
    fields := none
    max_results := none }

/-! ## The redactor (`process_tickets_data`) -/

/-- The configuration keys `process_tickets_data` reads:
`config.get("global_key_exclusions", [])` and
`config.get("ticket_field_exclusions", {})`.  The field-exclusion dict
becomes an ordered association list of (sub-key name, dotted path list). -/
structure ProcessConfig where
  global_key_exclusions : Option (List String)
  ticket_field_exclusions : Option (List (String × List String))

/-- One iteration of the `for key_to_del in global_exclusions` loop: delete
the key from the ticket when present (absence is a no-op). -/
def gexStep (t : List (String × JVal)) (key_to_del : String) :
    List (String × JVal) :=
  if (lookupKey key_to_del t).isSome then delKey key_to_del t else t

/-- The `for key_to_del in global_exclusions` loop. -/
def applyGlobalExclusions (global_exclusions : List String)
    (ticket : List (String × JVal)) : List (String × JVal) :=
  global_exclusions.foldl gexStep ticket

/-- The `for sub_key_path_str in sub_key_paths_to_exclude` loop: split each
dotted path on `.` and run the recursive deletion on the target value. -/
def applyFieldPathDeletions (target : JVal) (paths : List String) : JVal :=
  paths.foldl
    (fun t sub_key_path_str =>
      _delete_nested_key_recursive t (sub_key_path_str.splitOn "."))
    target

/-- The `for main_field_key, sub_key_paths_to_exclude in
ticket_field_exclusions.items()` loop over the `fields` sub-dict: when the
sub-key exists and its value is a dict or a list, delete all its configured
dotted paths in place. -/
def tfeStep (fo : List (String × JVal)) (mkps : String × List String) :
    List (String × JVal) :=
  match lookupKey mkps.1 fo with
  | some target =>
      if target.isDictOrList then
        setKey fo mkps.1 (applyFieldPathDeletions target mkps.2)
      else fo
  | none => fo

def applyTicketFieldExclusions (tfe : List (String × List String))
    (fieldsObj : List (String × JVal)) : List (String × JVal) :=
  tfe.foldl tfeStep fieldsObj

/-- The per-ticket body of `process_tickets_data`: global key deletions,
then — if the ticket has a `fields` dict — the field exclusions applied to
it in place. -/
def process_one_ticket (gex : List String) (tfe : List (String × List String))
    (ticket : List (String × JVal)) : List (String × JVal) :=
  let t1 := applyGlobalExclusions gex ticket
  match lookupKey "fields" t1 with
  | some (JVal.obj fieldsObj) =>
      setKey t1 "fields" (JVal.obj (applyTicketFieldExclusions tfe fieldsObj))
  | _ => t1

/-- Embedding of `process_tickets_data` from `src/jira-ticket-fetcher.py`
(lines 146–195).  The Python function mutates the ticket list in place and
returns nothing; here the (possibly unchanged) list is returned.  An empty
ticket list and a spec with no rules on either axis are the early-return
no-ops; elements that are not dicts are skipped. -/
def process_elem (gex : List String) (tfe : List (String × List String))
    (ticket : JVal) : JVal :=
  match ticket with
  | JVal.obj entries => JVal.obj (process_one_ticket gex tfe entries)
  | other => other

def process_tickets_data (tickets : List JVal) (config : ProcessConfig) :
    List JVal :=
  let global_exclusions := config.global_key_exclusions.getD []
  let ticket_field_exclusions := config.ticket_field_exclusions.getD []
  if tickets.isEmpty then tickets
  else if global_exclusions.isEmpty && ticket_field_exclusions.isEmpty then
    tickets
  else
    tickets.map (process_elem global_exclusions ticket_field_exclusions)

/-! ## Exception-aware redactor

The same redaction pass, embedded in `Except String` where the operations
that can raise in Python do raise: subscripting a dict with a missing key
(`KeyError`) and deleting a missing key.  The source guards every such
access (`key_to_process not in current_item`, `key_to_del in ticket`,
`"fields" in ticket and isinstance(...)`, and a `try/except KeyError`
around `del`); proving this embedding never returns an error shows
redaction never raises. -/

/-- `d[k]` — raises `KeyError` when the key is absent. -/
def dictGetE (k : String) (es : List (String × JVal)) : Except String JVal :=
  match lookupKey k es with
  | some v => Except.ok v
  | none => Except.error "KeyError"

/-- `del d[k]` — raises `KeyError` when the key is absent. -/
def delKeyE (k : String) (es : List (String × JVal)) :
    Except String (List (String × JVal)) :=
  if (lookupKey k es).isSome then Except.ok (delKey k es)
  else Except.error "KeyError"

mutual
/-- `_delete_nested_key_recursive`, with the raising dict operations made
explicit.  The `del` on the final segment sits inside
`try/except KeyError: pass` in the source, mirrored here. -/
def delete_nested_key_exc : JVal → List String → Except String JVal
  | current_item, [] => Except.ok current_item
  | JVal.arr items, path_segments =>
      match delListElemsE items path_segments with
      | Except.ok items' => Except.ok (JVal.arr items')
      | Except.error e => Except.error e
  | JVal.obj entries, key_to_process :: restSegments =>
      if (lookupKey key_to_process entries).isNone then
        Except.ok (JVal.obj entries)
      else if restSegments = [] then
        match delKeyE key_to_process entries with
        | Except.ok entries' => Except.ok (JVal.obj entries')
        | Except.error _ => Except.ok (JVal.obj entries)
      else
        match hv : dictGetE key_to_process entries with
        | Except.error e => Except.error e
        | Except.ok v =>
            match delete_nested_key_exc v restSegments with
            | Except.ok v' =>
                Except.ok (JVal.obj (setKey entries key_to_process v'))
            | Except.error e => Except.error e
  | current_item, _ :: _ => Except.ok current_item
termination_by v _ => sizeOf v
decreasing_by
  all_goals simp_wf
  · simp only [dictGetE] at hv
    split at hv
    · cases hv
      have := sizeOf_lt_of_lookupKey (by assumption)
      omega
    · cases hv

/-- The list fan-out of `delete_nested_key_exc`. -/
def delListElemsE : List JVal → List String → Except String (List JVal)
  | [], _ => Except.ok []
  | JVal.obj es :: items, path_segments =>
      match delete_nested_key_exc (JVal.obj es) path_segments with
      | Except.ok v' =>
          match delListElemsE items path_segments with
          | Except.ok items' => Except.ok (v' :: items')
          | Except.error e => Except.error e
      | Except.error e => Except.error e
  | item :: items, path_segments =>
      match delListElemsE items path_segments with
      | Except.ok items' => Except.ok (item :: items')
      | Except.error e => Except.error e
termination_by l _ => sizeOf l
decreasing_by all_goals simp_wf <;> omega
end

/-- `applyFieldPathDeletions` in `Except String`. -/
def applyFieldPathDeletionsE : JVal → List String → Except String JVal
  | target, [] => Except.ok target
  | target, sub_key_path_str :: paths =>
      match delete_nested_key_exc target (sub_key_path_str.splitOn ".") with
      | Except.ok target' => applyFieldPathDeletionsE target' paths
      | Except.error e => Except.error e

/-- `applyTicketFieldExclusions` in `Except String`: the subscript
`ticket_fields_obj[main_field_key]` happens only after the
`main_field_key in ticket_fields_obj` check. -/
def applyTicketFieldExclusionsE :
    List (String × List String) → List (String × JVal) →
      Except String (List (String × JVal))
  | [], fo => Except.ok fo
  | mkps :: tfe, fo =>
      if (lookupKey mkps.1 fo).isSome then
        match dictGetE mkps.1 fo with
        | Except.error e => Except.error e
        | Except.ok target =>
            if target.isDictOrList then
              match applyFieldPathDeletionsE target mkps.2 with
              | Except.ok target' =>
                  applyTicketFieldExclusionsE tfe (setKey fo mkps.1 target')
              | Except.error e => Except.error e
            else applyTicketFieldExclusionsE tfe fo
      else applyTicketFieldExclusionsE tfe fo

/-- The global-exclusion loop in `Except String`: `del ticket[key_to_del]`
is guarded by `key_to_del in ticket` and wrapped in
`try/except KeyError: pass`. -/
def applyGlobalExclusionsE :
    List String → List (String × JVal) → Except String (List (String × JVal))
  | [], t => Except.ok t
  | key_to_del :: gex, t =>
      if (lookupKey key_to_del t).isSome then
        match delKeyE key_to_del t with
        | Except.ok t' => applyGlobalExclusionsE gex t'
        | Except.error _ => applyGlobalExclusionsE gex t
      else applyGlobalExclusionsE gex t

/-- Per-ticket body of the redactor in `Except String`. -/
def process_one_ticket_exc (gex : List String)
    (tfe : List (String × List String)) (ticket : List (String × JVal)) :
    Except String (List (String × JVal)) :=
  match applyGlobalExclusionsE gex ticket with
  | Except.error e => Except.error e
  | Except.ok t1 =>
      match lookupKey "fields" t1 with
      | some (JVal.obj fieldsObj) =>
          match applyTicketFieldExclusionsE tfe fieldsObj with
          | Except.ok fieldsObj' =>
              Except.ok (setKey t1 "fields" (JVal.obj fieldsObj'))
          | Except.error e => Except.error e
      | _ => Except.ok t1

/-- `process_tickets_data` in `Except String`. -/
def process_tickets_data_exc (tickets : List JVal) (config : ProcessConfig) :
    Except String (List JVal) :=
  let global_exclusions := config.global_key_exclusions.getD []
  let ticket_field_exclusions := config.ticket_field_exclusions.getD []
  if tickets.isEmpty then Except.ok tickets
  else if global_exclusions.isEmpty && ticket_field_exclusions.isEmpty then
    Except.ok tickets
  else
    tickets.mapM fun ticket =>
      match ticket with
      | JVal.obj entries =>
          match process_one_ticket_exc global_exclusions
              ticket_field_exclusions entries with
          | Except.ok entries' => Except.ok (JVal.obj entries')
          | Except.error e => Except.error e
      | other => Except.ok other

/-! ## The writer (`save_tickets`) -/

/-- The configuration keys `save_tickets` reads.  `tickets_per_file` models
the value after `int()` parsing: a config value that is absent or fails to
parse is `none` (both lead to single-file output). -/
structure SaveConfig where
  export_filename : Option String
  export_format : Option String
  tickets_per_file : Option Int

/-- Python `str.lower()`, written over the character list (the library's
`String.toLower` is irreducible for the kernel). -/
def pyLower (s : String) : String := ⟨s.data.map Char.toLower⟩

/-- Embedding of `save_tickets` from `src/jira-ticket-fetcher.py` (lines
198–272), as the list of (filename, contents) writes it performs, in order.
A non-positive `tickets_per_file` falls back to single-file output; a
non-`json` format is reported and nothing is written (the chunked loop
returns on its first iteration, before any file is opened). -/
def save_tickets (tickets : Option (List JVal)) (config : Option SaveConfig) :
    List (String × List JVal) :=
  match tickets with
  | none => []
  | some tickets =>
    match config with
    | none => []
    | some cfg =>
      let export_filename_base := cfg.export_filename.getD "jira_tickets"
      let export_format := pyLower (cfg.export_format.getD "json")
      let tickets_per_file : Option Int :=
        match cfg.tickets_per_file with
        | none => none
        | some n => if n ≤ 0 then none else some n
      let total_tickets := tickets.length
      match tickets_per_file with
      | some n =>
        if 0 < total_tickets then
          if export_format = "json" then
            let nNat := n.toNat
            let num_files := (total_tickets + nNat - 1) / nNat
            (List.range num_files).map fun i =>
              (export_filename_base ++ toString (i + 1) ++ "." ++ export_format,
                (tickets.drop (i * nNat)).take nNat)
          else []
        else
          if export_format = "json" then
            [(export_filename_base ++ "." ++ export_format, tickets)]
          else []
      | none =>
        if export_format = "json" then
          [(export_filename_base ++ "." ++ export_format, tickets)]
        else []

/-- Positions a whole redaction pass can reach or alter, formalising "named
in the global exclusion set or addressed, at its position in the tree, by
some dotted path of the field-exclusion mapping": the ticket root, anything
at or under a globally excluded key, the `fields` entry when field
exclusions exist, and — under `fields.{subKey}` for a configured sub-key —
every position its dotted paths can touch. -/
def touchesConfig (gex : List String) (tfe : List (String × List String)) :
    List Step → Bool
  | [] => true
  | Step.idx _ :: _ => false
  | Step.key g :: pos =>
      gex.contains g ||
      (g == "fields" &&
        (match pos with
         | [] => !tfe.isEmpty
         | Step.idx _ :: _ => false
         | Step.key mk :: pos' =>
             tfe.any fun mkps =>
               mkps.1 == mk && mkps.2.any fun p =>
                 touchesPath (p.splitOn ".") pos'))

/-! ## Association-list lemmas -/

theorem delKey_nil (k : String) : delKey k [] = [] := rfl

theorem delKey_cons (k : String) (e : String × JVal) (es : List (String × JVal)) :
    delKey k (e :: es) = if e.1 = k then delKey k es else e :: delKey k es := by
  simp only [delKey, List.filter_cons]
  by_cases hek : e.1 = k
  · simp [hek]
  · simp [hek]

theorem lookupKey_cons (a : String) (e : String × JVal)
    (es : List (String × JVal)) :
    lookupKey a (e :: es) = if e.1 = a then some e.2 else lookupKey a es := rfl

theorem lookupKey_delKey (a k : String) (es : List (String × JVal)) :
    lookupKey a (delKey k es) = if a = k then none else lookupKey a es := by
  induction es with
  | nil => simp [lookupKey, delKey_nil]
  | cons e es ih =>
    rw [delKey_cons]
    by_cases hek : e.1 = k
    · rw [if_pos hek, ih, lookupKey_cons]
      by_cases hak : a = k
      · simp [hak]
      · simp [hak, show ¬e.1 = a by rw [hek]; exact fun h => hak h.symm]
    · rw [if_neg hek, lookupKey_cons, lookupKey_cons, ih]
      by_cases hea : e.1 = a
      · simp [hea, show ¬a = k by rw [← hea]; exact hek]
      · simp [hea]

theorem lookupKey_setKey (a k : String) (v : JVal) (es : List (String × JVal)) :
    lookupKey a (setKey es k v) =
      if a = k then (lookupKey k es).map (fun _ => v) else lookupKey a es := by
  induction es with
  | nil => simp [lookupKey, setKey]
  | cons e es ih =>
    simp only [setKey, List.map_cons] at *
    by_cases hek : e.1 = k
    · simp only [hek, if_true, lookupKey, ih]
      by_cases hak : a = k
      · simp [hak]
      · simp [hak, show ¬k = a from fun h => hak h.symm, hek]
    · simp only [hek, if_false, lookupKey, ih]
      by_cases hea : e.1 = a
      · simp [hea, show ¬a = k by rw [← hea]; exact hek]
      · simp [hea]

theorem setKey_setKey (es : List (String × JVal)) (k : String) (u v : JVal) :
    setKey (setKey es k u) k v = setKey es k v := by
  induction es with
  | nil => simp [setKey]
  | cons e es ih =>
    simp only [setKey, List.map_cons] at *
    by_cases hek : e.1 = k
    · simp [hek, ih]
    · simp [hek, ih]

theorem delKey_setKey_self (es : List (String × JVal)) (k : String) (v : JVal) :
    delKey k (setKey es k v) = delKey k es := by
  induction es with
  | nil => simp [setKey, delKey_nil]
  | cons e es ih =>
    simp only [setKey, List.map_cons] at *
    by_cases hek : e.1 = k
    · rw [if_pos hek, delKey_cons, delKey_cons, if_pos hek, if_pos rfl, ih]
    · rw [if_neg hek, delKey_cons, delKey_cons, if_neg hek, if_neg hek, ih]

theorem setKey_comm (a b : String) (hab : a ≠ b) (es : List (String × JVal))
    (u v : JVal) :
    setKey (setKey es a u) b v = setKey (setKey es b v) a u := by
  induction es with
  | nil => simp [setKey]
  | cons e es ih =>
    simp only [setKey, List.map_cons] at *
    by_cases hea : e.1 = a
    · simp [hea, hab, show ¬a = b from hab, ih]
    · by_cases heb : e.1 = b
      · simp [hea, heb, show ¬b = a from fun h => hab h.symm, ih]
      · simp [hea, heb, ih]

theorem delKey_comm (a b : String) (es : List (String × JVal)) :
    delKey a (delKey b es) = delKey b (delKey a es) := by
  simp only [delKey, List.filter_filter]
  congr 1
  funext e
  rw [Bool.and_comm]

theorem delKey_setKey_comm (a b : String) (hab : a ≠ b)
    (es : List (String × JVal)) (v : JVal) :
    delKey a (setKey es b v) = setKey (delKey a es) b v := by
  induction es with
  | nil => simp [setKey, delKey_nil]
  | cons e es ih =>
    simp only [setKey, List.map_cons] at *
    by_cases heb : e.1 = b
    · have hea : ¬e.1 = a := by rw [heb]; exact fun h => hab h.symm
      rw [if_pos heb, delKey_cons, delKey_cons,
        if_neg (show ¬(b, v).1 = a from fun h => hab h.symm), if_neg hea,
        List.map_cons, if_pos heb, ih]
    · by_cases hea : e.1 = a
      · rw [if_neg heb, delKey_cons, delKey_cons, if_pos hea, if_pos hea, ih]
      · rw [if_neg heb, delKey_cons, delKey_cons, if_neg hea, if_neg hea,
          List.map_cons, if_neg heb, ih]

theorem delKey_delKey_self (k : String) (es : List (String × JVal)) :
    delKey k (delKey k es) = delKey k es := by
  simp [delKey, List.filter_filter]

theorem setKey_absent (k : String) (es : List (String × JVal)) (v : JVal)
    (h : lookupKey k es = none) : setKey es k v = es := by
  induction es with
  | nil => simp [setKey]
  | cons e es ih =>
    simp only [lookupKey] at h
    split at h
    · cases h
    · have hek : ¬e.1 = k := by
        intro hh
        rename_i hne
        exact hne hh
      simp only [setKey, List.map_cons] at *
      rw [if_neg hek, ih h]

theorem delKey_absent (k : String) (es : List (String × JVal))
    (h : lookupKey k es = none) : delKey k es = es := by
  induction es with
  | nil => simp [delKey]
  | cons e es ih =>
    simp only [lookupKey] at h
    split at h
    · cases h
    · have hek : ¬e.1 = k := by
        intro hh
        rename_i hne
        exact hne hh
      rw [delKey_cons, if_neg hek, ih h]

/-! ## Shape lemmas for the recursive deletion -/

theorem delNK_nil (v : JVal) : _delete_nested_key_recursive v [] = v := by
  cases v <;> simp [_delete_nested_key_recursive]

theorem delNK_arr (items : List JVal) (segs : List String) (h : segs ≠ []) :
    _delete_nested_key_recursive (JVal.arr items) segs
      = JVal.arr (delListElems items segs) := by
  cases segs with
  | nil => exact absurd rfl h
  | cons s ss => simp [_delete_nested_key_recursive]

theorem delNK_obj_absent (entries : List (String × JVal)) (k : String)
    (rest : List String) (h : lookupKey k entries = none) :
    _delete_nested_key_recursive (JVal.obj entries) (k :: rest)
      = JVal.obj entries := by
  simp only [_delete_nested_key_recursive]
  split
  · rfl
  · rename_i v heq
    rw [h] at heq
    cases heq

theorem delNK_obj_last (entries : List (String × JVal)) (k : String) (v : JVal)
    (h : lookupKey k entries = some v) :
    _delete_nested_key_recursive (JVal.obj entries) [k]
      = JVal.obj (delKey k entries) := by
  simp only [_delete_nested_key_recursive]
  split
  · rename_i heq
    rw [h] at heq
    cases heq
  · simp

theorem delNK_obj_descend (entries : List (String × JVal)) (k : String)
    (rest : List String) (v : JVal) (h : lookupKey k entries = some v)
    (hr : rest ≠ []) :
    _delete_nested_key_recursive (JVal.obj entries) (k :: rest)
      = JVal.obj (setKey entries k (_delete_nested_key_recursive v rest)) := by
  simp only [_delete_nested_key_recursive]
  split
  · rename_i heq
    rw [h] at heq
    cases heq
  · rename_i w heq
    rw [h] at heq
    cases heq
    rw [if_neg hr]

theorem delNK_scalar (v : JVal) (segs : List String) (h : v.isScalar = true) :
    _delete_nested_key_recursive v segs = v := by
  cases segs with
  | nil => exact delNK_nil v
  | cons s ss => cases v <;> simp_all [JVal.isScalar, _delete_nested_key_recursive]

theorem delListElems_eq_map (items : List JVal) (segs : List String) :
    delListElems items segs
      = items.map fun it =>
          if it.isObj then _delete_nested_key_recursive it segs else it := by
  induction items with
  | nil => simp [delListElems]
  | cons it items ih =>
    cases it <;> simp [delListElems, JVal.isObj, ih, delNK_nil]

theorem delNK_obj_shape (entries : List (String × JVal)) (segs : List String) :
    ∃ es', _delete_nested_key_recursive (JVal.obj entries) segs
      = JVal.obj es' := by
  cases segs with
  | nil => exact ⟨entries, delNK_nil _⟩
  | cons k rest =>
    cases hv : lookupKey k entries with
    | none => exact ⟨entries, delNK_obj_absent _ _ _ hv⟩
    | some v =>
      cases rest with
      | nil => exact ⟨delKey k entries, delNK_obj_last _ _ _ hv⟩
      | cons r rs =>
        exact ⟨setKey entries k
            (_delete_nested_key_recursive v (r :: rs)),
          delNK_obj_descend _ _ _ _ hv (by simp)⟩

theorem delNK_isObj (v : JVal) (segs : List String) :
    (_delete_nested_key_recursive v segs).isObj = v.isObj := by
  cases segs with
  | nil => rw [delNK_nil]
  | cons s ss =>
    cases v with
    | obj es =>
      obtain ⟨es', h⟩ := delNK_obj_shape es (s :: ss)
      rw [h]
      rfl
    | arr its =>
      rw [delNK_arr _ _ (by simp)]
      rfl
    | str s2 => rw [delNK_scalar _ _ (by rfl)]
    | num n => rw [delNK_scalar _ _ (by rfl)]
    | bool b => rw [delNK_scalar _ _ (by rfl)]
    | null => rw [delNK_scalar _ _ (by rfl)]

theorem delNK_isDictOrList (v : JVal) (segs : List String) :
    (_delete_nested_key_recursive v segs).isDictOrList = v.isDictOrList := by
  cases segs with
  | nil => rw [delNK_nil]
  | cons s ss =>
    cases v with
    | obj es =>
      obtain ⟨es', h⟩ := delNK_obj_shape es (s :: ss)
      rw [h]
      rfl
    | arr its =>
      rw [delNK_arr _ _ (by simp)]
      rfl
    | str s2 => rw [delNK_scalar _ _ (by rfl)]
    | num n => rw [delNK_scalar _ _ (by rfl)]
    | bool b => rw [delNK_scalar _ _ (by rfl)]
    | null => rw [delNK_scalar _ _ (by rfl)]

/-- Structural induction on `JVal` with member hypotheses for the two list
constructors. -/
theorem JVal.strongInduction {motive : JVal → Prop}
    (hobj : ∀ es, (∀ k v, (k, v) ∈ es → motive v) → motive (JVal.obj es))
    (harr : ∀ items, (∀ it ∈ items, motive it) → motive (JVal.arr items))
    (hstr : ∀ s, motive (JVal.str s)) (hnum : ∀ n, motive (JVal.num n))
    (hbool : ∀ b, motive (JVal.bool b)) (hnull : motive JVal.null) :
    ∀ v, motive v := by
  have key : ∀ n v, sizeOf v ≤ n → motive v := by
    intro n
    induction n with
    | zero =>
      intro v h
      cases v <;> simp at h
    | succ n ih =>
      intro v h
      cases v with
      | obj es =>
        refine hobj es fun k v hm => ih v ?_
        have h1 := List.sizeOf_lt_of_mem hm
        simp at h h1
        omega
      | arr items =>
        refine harr items fun it hm => ih it ?_
        have h1 := List.sizeOf_lt_of_mem hm
        simp at h
        omega
      | str s => exact hstr s
      | num m => exact hnum m
      | bool b => exact hbool b
      | null => exact hnull
  exact fun v => key (sizeOf v) v le_rfl

/-! ## The recursive deletion matches the spec case analysis -/

theorem mem_of_lookupKey :
    ∀ {es : List (String × JVal)} {k : String} {v : JVal},
      lookupKey k es = some v → (k, v) ∈ es := by
  intro es
  induction es with
  | nil => intro k v h; cases h
  | cons e es ih =>
    intro k v h
    rw [lookupKey_cons] at h
    split at h
    · cases h
      rename_i hek
      rw [← hek]
      exact List.mem_cons_self e es
    · exact List.mem_cons_of_mem e (ih h)

theorem specDel_nil (v : JVal) : deleteNestedSpec v [] = v := by
  simp [deleteNestedSpec]

theorem specDel_arr (elems : List JVal) (s : String) (ss : List String) :
    deleteNestedSpec (JVal.arr elems) (s :: ss)
      = JVal.arr (elems.map fun x =>
          if x.isObj then deleteNestedSpec x (s :: ss) else x) := by
  conv_lhs => rw [deleteNestedSpec]
  congr 1
  have h1 : (fun (el : {x // x ∈ elems}) =>
      match el with
      | ⟨JVal.obj m, _⟩ => deleteNestedSpec (JVal.obj m) (s :: ss)
      | ⟨other, _⟩ => other)
      = fun (el : {x // x ∈ elems}) =>
          if el.val.isObj then deleteNestedSpec el.val (s :: ss) else el.val := by
    funext el
    obtain ⟨x, hx⟩ := el
    cases x <;> simp [JVal.isObj]
  rw [h1]
  exact List.attach_map_val elems
    (fun x => if x.isObj then deleteNestedSpec x (s :: ss) else x)

theorem specDel_obj_absent (m : List (String × JVal)) (k : String)
    (rest : List String) (h : lookupKey k m = none) :
    deleteNestedSpec (JVal.obj m) (k :: rest) = JVal.obj m := by
  simp only [deleteNestedSpec]
  split
  · rfl
  · rename_i v heq
    rw [h] at heq
    cases heq

theorem specDel_obj_last (m : List (String × JVal)) (k : String) (v : JVal)
    (h : lookupKey k m = some v) :
    deleteNestedSpec (JVal.obj m) [k] = JVal.obj (delKey k m) := by
  simp only [deleteNestedSpec]
  split
  · rename_i heq
    rw [h] at heq
    cases heq
  · simp

theorem specDel_obj_descend (m : List (String × JVal)) (k : String)
    (rest : List String) (v : JVal) (h : lookupKey k m = some v)
    (hr : rest ≠ []) :
    deleteNestedSpec (JVal.obj m) (k :: rest)
      = JVal.obj (m.map fun e =>
          if e.1 = k then (k, deleteNestedSpec v rest) else e) := by
  simp only [deleteNestedSpec]
  split
  · rename_i heq
    rw [h] at heq
    cases heq
  · rename_i w heq
    rw [h] at heq
    cases heq
    rw [if_neg hr]

theorem specDel_scalar (v : JVal) (segs : List String)
    (h : v.isScalar = true) : deleteNestedSpec v segs = v := by
  cases segs with
  | nil => exact specDel_nil v
  | cons s ss => cases v <;> simp_all [JVal.isScalar, deleteNestedSpec]

/-- C2.  For every target node and every dotted path, the recursive deletion
`_delete_nested_key_recursive` behaves exactly as the spec's case analysis
(captured word for word by `deleteNestedSpec`): a mapping is left alone when
the first segment is absent, loses the key when one segment remains, and is
recursed into otherwise; a sequence has the same deletion applied to every
mapping element and other elements untouched; any other node, or an empty
path, is a no-op. -/
theorem delete_nested_key_matches_spec :
    ∀ (v : JVal) (path : List String),
      _delete_nested_key_recursive v path = deleteNestedSpec v path := by
  intro v
  induction v using JVal.strongInduction with
  | hobj es ih =>
    intro path
    cases path with
    | nil => rw [delNK_nil, specDel_nil]
    | cons k rest =>
      cases hv : lookupKey k es with
      | none => rw [delNK_obj_absent _ _ _ hv, specDel_obj_absent _ _ _ hv]
      | some v =>
        cases rest with
        | nil => rw [delNK_obj_last _ _ _ hv, specDel_obj_last _ _ _ hv]
        | cons r rs =>
          rw [delNK_obj_descend _ _ _ _ hv (by simp),
            specDel_obj_descend _ _ _ _ hv (by simp)]
          have hrec := ih k v (mem_of_lookupKey hv) (r :: rs)
          simp only [setKey, hrec]
  | harr items ih =>
    intro path
    cases path with
    | nil => rw [delNK_nil, specDel_nil]
    | cons s ss =>
      rw [delNK_arr _ _ (by simp), specDel_arr, delListElems_eq_map]
      congr 1
      refine List.map_congr_left fun x hx => ?_
      by_cases hobj : x.isObj
      · rw [if_pos hobj, if_pos hobj, ih x hx]
      · rw [if_neg hobj, if_neg hobj]
  | hstr s => intro path; rw [delNK_scalar _ _ (by rfl), specDel_scalar _ _ (by rfl)]
  | hnum n => intro path; rw [delNK_scalar _ _ (by rfl), specDel_scalar _ _ (by rfl)]
  | hbool b => intro path; rw [delNK_scalar _ _ (by rfl), specDel_scalar _ _ (by rfl)]
  | hnull => intro path; rw [delNK_scalar _ _ (by rfl), specDel_scalar _ _ (by rfl)]

/-! ## Frame lemmas: what the recursive deletion cannot touch -/

theorem getAt_nil (v : JVal) : getAt v [] = some v := by
  cases v <;> simp [getAt]

theorem getAt_obj_key_some (es : List (String × JVal)) (k : String)
    (pos : List Step) (v : JVal) (h : lookupKey k es = some v) :
    getAt (JVal.obj es) (Step.key k :: pos) = getAt v pos := by
  simp [getAt, h]

theorem getAt_obj_key_none (es : List (String × JVal)) (k : String)
    (pos : List Step) (h : lookupKey k es = none) :
    getAt (JVal.obj es) (Step.key k :: pos) = none := by
  simp [getAt, h]

theorem getAt_obj_idx (es : List (String × JVal)) (i : Nat) (pos : List Step) :
    getAt (JVal.obj es) (Step.idx i :: pos) = none := by
  simp [getAt]

theorem getAt_arr_idx_some (items : List JVal) (i : Nat) (pos : List Step)
    (v : JVal) (h : items.get? i = some v) :
    getAt (JVal.arr items) (Step.idx i :: pos) = getAt v pos := by
  rw [List.get?_eq_getElem?] at h
  simp [getAt, h]

theorem getAt_arr_idx_none (items : List JVal) (i : Nat) (pos : List Step)
    (h : items.get? i = none) :
    getAt (JVal.arr items) (Step.idx i :: pos) = none := by
  rw [List.get?_eq_getElem?] at h
  simp [getAt, h]

theorem getAt_arr_key (items : List JVal) (k : String) (pos : List Step) :
    getAt (JVal.arr items) (Step.key k :: pos) = none := by
  simp [getAt]

theorem getAt_scalar (v : JVal) (st : Step) (pos : List Step)
    (h : v.isScalar = true) : getAt v (st :: pos) = none := by
  cases v <;> cases st <;> simp_all [JVal.isScalar, getAt]

theorem touchesPath_nil_segs (pos : List Step) : touchesPath [] pos = false := by
  cases pos <;> simp [touchesPath]

theorem touchesPath_nil_pos (segs : List String) (h : segs ≠ []) :
    touchesPath segs [] = true := by
  cases segs with
  | nil => exact absurd rfl h
  | cons s ss => simp [touchesPath]

theorem touchesPath_idx (segs : List String) (i : Nat) (pos : List Step) :
    touchesPath segs (Step.idx i :: pos) = touchesPath segs pos := by
  cases segs with
  | nil => simp [touchesPath_nil_segs]
  | cons s ss => simp [touchesPath]

theorem touchesPath_key_single (k c : String) (pos : List Step) :
    touchesPath [k] (Step.key c :: pos) = decide (c = k) := by
  simp [touchesPath]

theorem touchesPath_key_multi (k c : String) (r : String) (rs : List String)
    (pos : List Step) :
    touchesPath (k :: r :: rs) (Step.key c :: pos)
      = (decide (c = k) && touchesPath (r :: rs) pos) := by
  simp [touchesPath]

theorem delListElems_get_none (items : List JVal) (segs : List String)
    (i : Nat) (h : items.get? i = none) :
    (delListElems items segs).get? i = none := by
  rw [delListElems_eq_map, List.get?_map, h]
  rfl

theorem delListElems_get_some (items : List JVal) (segs : List String)
    (i : Nat) (el : JVal) (h : items.get? i = some el) :
    (delListElems items segs).get? i
      = some (if el.isObj then _delete_nested_key_recursive el segs else el) := by
  rw [delListElems_eq_map, List.get?_map, h]
  rfl

/-- Positions outside `touchesPath segs` read the same before and after the
recursive deletion. -/
theorem delNK_frame :
    ∀ (v : JVal) (segs : List String) (pos : List Step),
      touchesPath segs pos = false →
      getAt (_delete_nested_key_recursive v segs) pos = getAt v pos := by
  intro v
  induction v using JVal.strongInduction with
  | hobj es ih =>
    intro segs pos h
    cases segs with
    | nil => rw [delNK_nil]
    | cons k rest =>
      cases pos with
      | nil => rw [touchesPath_nil_pos _ (by simp)] at h; cases h
      | cons st pos =>
        cases hv : lookupKey k es with
        | none => rw [delNK_obj_absent _ _ _ hv]
        | some v =>
          cases rest with
          | nil =>
            rw [delNK_obj_last _ _ _ hv]
            cases st with
            | idx i => rw [getAt_obj_idx, getAt_obj_idx]
            | key c =>
              rw [touchesPath_key_single] at h
              have hck : ¬c = k := by simpa using h
              have hdel : lookupKey c (delKey k es) = lookupKey c es := by
                rw [lookupKey_delKey, if_neg hck]
              cases hlc : lookupKey c es with
              | none =>
                rw [getAt_obj_key_none _ _ _ (hdel.trans hlc),
                  getAt_obj_key_none _ _ _ hlc]
              | some u =>
                rw [getAt_obj_key_some _ _ _ _ (hdel.trans hlc),
                  getAt_obj_key_some _ _ _ _ hlc]
          | cons r rs =>
            rw [delNK_obj_descend _ _ _ _ hv (by simp)]
            cases st with
            | idx i => rw [getAt_obj_idx, getAt_obj_idx]
            | key c =>
              rw [touchesPath_key_multi] at h
              by_cases hck : c = k
              · have hset : lookupKey c
                    (setKey es k (_delete_nested_key_recursive v (r :: rs)))
                    = some (_delete_nested_key_recursive v (r :: rs)) := by
                  rw [lookupKey_setKey, if_pos hck, hv]
                  rfl
                have hrs : touchesPath (r :: rs) pos = false := by
                  simp [hck] at h
                  exact h
                rw [getAt_obj_key_some _ _ _ _ hset,
                  getAt_obj_key_some _ _ _ _ (by rw [hck]; exact hv),
                  ih k v (mem_of_lookupKey hv) (r :: rs) pos hrs]
              · have hset : lookupKey c
                    (setKey es k (_delete_nested_key_recursive v (r :: rs)))
                    = lookupKey c es := by
                  rw [lookupKey_setKey, if_neg hck]
                cases hlc : lookupKey c es with
                | none =>
                  rw [getAt_obj_key_none _ _ _ (hset.trans hlc),
                    getAt_obj_key_none _ _ _ hlc]
                | some u =>
                  rw [getAt_obj_key_some _ _ _ _ (hset.trans hlc),
                    getAt_obj_key_some _ _ _ _ hlc]
  | harr items ih =>
    intro segs pos h
    cases segs with
    | nil => rw [delNK_nil]
    | cons s ss =>
      cases pos with
      | nil => rw [touchesPath_nil_pos _ (by simp)] at h; cases h
      | cons st pos =>
        rw [delNK_arr _ _ (by simp)]
        cases st with
        | key c => rw [getAt_arr_key, getAt_arr_key]
        | idx i =>
          rw [touchesPath_idx] at h
          cases hg : items.get? i with
          | none =>
            rw [getAt_arr_idx_none _ _ _ (delListElems_get_none _ _ _ hg),
              getAt_arr_idx_none _ _ _ hg]
          | some el =>
            rw [getAt_arr_idx_some _ _ _ _ (delListElems_get_some _ _ _ _ hg),
              getAt_arr_idx_some _ _ _ _ hg]
            by_cases hobj : el.isObj
            · rw [if_pos hobj]
              exact ih el (List.get?_mem hg) (s :: ss) pos h
            · rw [if_neg hobj]
  | hstr s => intro segs pos h; rw [delNK_scalar _ _ (by rfl)]
  | hnum n => intro segs pos h; rw [delNK_scalar _ _ (by rfl)]
  | hbool b => intro segs pos h; rw [delNK_scalar _ _ (by rfl)]
  | hnull => intro segs pos h; rw [delNK_scalar _ _ (by rfl)]

/-- The recursive deletion never invents anything: every position readable
after it was readable before, and a scalar read after it is the same
scalar. -/
theorem delNK_noadd :
    ∀ (v : JVal) (segs : List String) (pos : List Step) (w : JVal),
      getAt (_delete_nested_key_recursive v segs) pos = some w →
      ∃ w0, getAt v pos = some w0 ∧ (w.isScalar = true → w0 = w) := by
  intro v
  induction v using JVal.strongInduction with
  | hobj es ih =>
    intro segs pos w hget
    cases segs with
    | nil =>
      rw [delNK_nil] at hget
      exact ⟨w, hget, fun _ => rfl⟩
    | cons k rest =>
      cases pos with
      | nil =>
        rw [getAt_nil] at hget
        cases hget
        obtain ⟨es2, hshape⟩ := delNK_obj_shape es (k :: rest)
        rw [hshape]
        exact ⟨JVal.obj es, getAt_nil _, by simp [JVal.isScalar]⟩
      | cons st pos =>
        cases hv : lookupKey k es with
        | none =>
          rw [delNK_obj_absent _ _ _ hv] at hget
          exact ⟨w, hget, fun _ => rfl⟩
        | some v =>
          cases rest with
          | nil =>
            rw [delNK_obj_last _ _ _ hv] at hget
            cases st with
            | idx i => rw [getAt_obj_idx] at hget; cases hget
            | key c =>
              by_cases hck : c = k
              · rw [getAt_obj_key_none _ _ _
                  (by rw [lookupKey_delKey, if_pos hck])] at hget
                cases hget
              · have hdel : lookupKey c (delKey k es) = lookupKey c es := by
                  rw [lookupKey_delKey, if_neg hck]
                cases hlc : lookupKey c es with
                | none =>
                  rw [getAt_obj_key_none _ _ _ (hdel.trans hlc)] at hget
                  cases hget
                | some u =>
                  rw [getAt_obj_key_some _ _ _ _ (hdel.trans hlc)] at hget
                  rw [getAt_obj_key_some _ _ _ _ hlc]
                  exact ⟨w, hget, fun _ => rfl⟩
          | cons r rs =>
            rw [delNK_obj_descend _ _ _ _ hv (by simp)] at hget
            cases st with
            | idx i => rw [getAt_obj_idx] at hget; cases hget
            | key c =>
              by_cases hck : c = k
              · rw [getAt_obj_key_some _ _ _ _
                  (show lookupKey c
                      (setKey es k (_delete_nested_key_recursive v (r :: rs)))
                      = some (_delete_nested_key_recursive v (r :: rs)) by
                    rw [lookupKey_setKey, if_pos hck, hv]
                    rfl)] at hget
                obtain ⟨w0, hw0, hsc⟩ :=
                  ih k v (mem_of_lookupKey hv) (r :: rs) pos w hget
                rw [getAt_obj_key_some _ _ _ _ (by rw [hck]; exact hv)]
                exact ⟨w0, hw0, hsc⟩
              · have hset : lookupKey c
                    (setKey es k (_delete_nested_key_recursive v (r :: rs)))
                    = lookupKey c es := by
                  rw [lookupKey_setKey, if_neg hck]
                cases hlc : lookupKey c es with
                | none =>
                  rw [getAt_obj_key_none _ _ _ (hset.trans hlc)] at hget
                  cases hget
                | some u =>
                  rw [getAt_obj_key_some _ _ _ _ (hset.trans hlc)] at hget
                  rw [getAt_obj_key_some _ _ _ _ hlc]
                  exact ⟨w, hget, fun _ => rfl⟩
  | harr items ih =>
    intro segs pos w hget
    cases segs with
    | nil =>
      rw [delNK_nil] at hget
      exact ⟨w, hget, fun _ => rfl⟩
    | cons s ss =>
      rw [delNK_arr _ _ (by simp)] at hget
      cases pos with
      | nil =>
        rw [getAt_nil] at hget
        cases hget
        exact ⟨JVal.arr items, getAt_nil _, by simp [JVal.isScalar]⟩
      | cons st pos =>
        cases st with
        | key c => rw [getAt_arr_key] at hget; cases hget
        | idx i =>
          cases hg : items.get? i with
          | none =>
            rw [getAt_arr_idx_none _ _ _ (delListElems_get_none _ _ _ hg)]
              at hget
            cases hget
          | some el =>
            rw [getAt_arr_idx_some _ _ _ _ (delListElems_get_some _ _ _ _ hg)]
              at hget
            rw [getAt_arr_idx_some _ _ _ _ hg]
            by_cases hobj : el.isObj
            · rw [if_pos hobj] at hget
              exact ih el (List.get?_mem hg) (s :: ss) pos w hget
            · rw [if_neg hobj] at hget
              exact ⟨w, hget, fun _ => rfl⟩
  | hstr s =>
    intro segs pos w hget
    rw [delNK_scalar _ _ (by rfl)] at hget
    exact ⟨w, hget, fun _ => rfl⟩
  | hnum n =>
    intro segs pos w hget
    rw [delNK_scalar _ _ (by rfl)] at hget
    exact ⟨w, hget, fun _ => rfl⟩
  | hbool b =>
    intro segs pos w hget
    rw [delNK_scalar _ _ (by rfl)] at hget
    exact ⟨w, hget, fun _ => rfl⟩
  | hnull =>
    intro segs pos w hget
    rw [delNK_scalar _ _ (by rfl)] at hget
    exact ⟨w, hget, fun _ => rfl⟩

/-! ## Commutation and idempotence of the recursive deletion -/

/-- Two nested-path deletions commute, whatever the two paths are. -/
theorem delNK_comm :
    ∀ (v : JVal) (p q : List String),
      _delete_nested_key_recursive (_delete_nested_key_recursive v p) q
        = _delete_nested_key_recursive (_delete_nested_key_recursive v q) p := by
  intro v
  induction v using JVal.strongInduction with
  | hobj es ih =>
    intro p q
    cases p with
    | nil => rw [delNK_nil, delNK_nil]
    | cons a ps =>
      cases q with
      | nil => rw [delNK_nil, delNK_nil]
      | cons b qs =>
        cases hva : lookupKey a es with
        | none =>
          have h1 : _delete_nested_key_recursive (JVal.obj es) (a :: ps)
              = JVal.obj es := delNK_obj_absent _ _ _ hva
          rw [h1]
          cases hvb : lookupKey b es with
          | none =>
            rw [delNK_obj_absent _ _ _ hvb, h1]
          | some w0 =>
            have hab : ¬a = b := by
              intro h
              rw [h, hvb] at hva
              cases hva
            cases qs with
            | nil =>
              rw [delNK_obj_last _ _ _ hvb]
              rw [delNK_obj_absent _ _ _
                (by rw [lookupKey_delKey, if_neg hab, hva])]
            | cons r rs =>
              rw [delNK_obj_descend _ _ _ _ hvb (by simp)]
              rw [delNK_obj_absent _ _ _
                (by rw [lookupKey_setKey, if_neg hab, hva])]
        | some v0 =>
          cases hvb : lookupKey b es with
          | none =>
            have hba : ¬b = a := by
              intro h
              rw [h, hva] at hvb
              cases hvb
            rw [delNK_obj_absent _ _ _ hvb]
            cases ps with
            | nil =>
              rw [delNK_obj_last _ _ _ hva]
              rw [delNK_obj_absent _ _ _
                (by rw [lookupKey_delKey, if_neg hba, hvb])]
            | cons r rs =>
              rw [delNK_obj_descend _ _ _ _ hva (by simp)]
              rw [delNK_obj_absent _ _ _
                (by rw [lookupKey_setKey, if_neg hba, hvb])]
          | some w0 =>
            by_cases hab : a = b
            · subst hab
              have hvw : w0 = v0 := by
                rw [hva] at hvb
                cases hvb
                rfl
              subst hvw
              cases ps with
              | nil =>
                cases qs with
                | nil => rfl
                | cons r rs =>
                  rw [delNK_obj_last _ _ _ hva,
                    delNK_obj_descend _ _ _ _ hva (by simp)]
                  rw [delNK_obj_absent _ _ _
                    (by rw [lookupKey_delKey, if_pos rfl])]
                  rw [delNK_obj_last _ _ _
                    (show lookupKey a (setKey es a
                        (_delete_nested_key_recursive w0 (r :: rs)))
                      = some (_delete_nested_key_recursive w0 (r :: rs)) by
                      rw [lookupKey_setKey, if_pos rfl, hva]; rfl)]
                  rw [delKey_setKey_self]
              | cons pr prs =>
                cases qs with
                | nil =>
                  rw [delNK_obj_last _ _ _ hva,
                    delNK_obj_descend _ _ _ _ hva (by simp)]
                  rw [delNK_obj_last _ _ _
                    (show lookupKey a (setKey es a
                        (_delete_nested_key_recursive w0 (pr :: prs)))
                      = some (_delete_nested_key_recursive w0 (pr :: prs)) by
                      rw [lookupKey_setKey, if_pos rfl, hva]; rfl)]
                  rw [delKey_setKey_self]
                  rw [delNK_obj_absent _ _ _
                    (by rw [lookupKey_delKey, if_pos rfl])]
                | cons r rs =>
                  rw [delNK_obj_descend es a (pr :: prs) w0 hva (by simp),
                    delNK_obj_descend es a (r :: rs) w0 hva (by simp)]
                  rw [delNK_obj_descend _ a (r :: rs) _
                    (show lookupKey a (setKey es a
                        (_delete_nested_key_recursive w0 (pr :: prs)))
                      = some (_delete_nested_key_recursive w0 (pr :: prs)) by
                      rw [lookupKey_setKey, if_pos rfl, hva]; rfl) (by simp)]
                  rw [delNK_obj_descend _ a (pr :: prs) _
                    (show lookupKey a (setKey es a
                        (_delete_nested_key_recursive w0 (r :: rs)))
                      = some (_delete_nested_key_recursive w0 (r :: rs)) by
                      rw [lookupKey_setKey, if_pos rfl, hva]; rfl) (by simp)]
                  rw [setKey_setKey, setKey_setKey,
                    ih a w0 (mem_of_lookupKey hva) (pr :: prs) (r :: rs)]
            · have hba : ¬b = a := fun h => hab h.symm
              cases ps with
              | nil =>
                cases qs with
                | nil =>
                  rw [delNK_obj_last _ _ _ hva, delNK_obj_last _ _ _ hvb]
                  rw [delNK_obj_last _ _ _
                    (show lookupKey b (delKey a es) = some w0 by
                      rw [lookupKey_delKey, if_neg hba, hvb])]
                  rw [delNK_obj_last _ _ _
                    (show lookupKey a (delKey b es) = some v0 by
                      rw [lookupKey_delKey, if_neg hab, hva])]
                  rw [delKey_comm]
                | cons r rs =>
                  rw [delNK_obj_last _ _ _ hva,
                    delNK_obj_descend _ _ _ _ hvb (by simp)]
                  rw [delNK_obj_descend _ b (r :: rs) _
                    (show lookupKey b (delKey a es) = some w0 by
                      rw [lookupKey_delKey, if_neg hba, hvb]) (by simp)]
                  rw [delNK_obj_last _ _ _
                    (show lookupKey a (setKey es b
                        (_delete_nested_key_recursive w0 (r :: rs)))
                      = some v0 by
                      rw [lookupKey_setKey, if_neg hab, hva])]
                  rw [delKey_setKey_comm a b hab]
              | cons pr prs =>
                cases qs with
                | nil =>
                  rw [delNK_obj_descend _ _ _ _ hva (by simp),
                    delNK_obj_last _ _ _ hvb]
                  rw [delNK_obj_last _ _ _
                    (show lookupKey b (setKey es a
                        (_delete_nested_key_recursive v0 (pr :: prs)))
                      = some w0 by
                      rw [lookupKey_setKey, if_neg hba, hvb])]
                  rw [delNK_obj_descend _ a (pr :: prs) _
                    (show lookupKey a (delKey b es) = some v0 by
                      rw [lookupKey_delKey, if_neg hab, hva]) (by simp)]
                  rw [delKey_setKey_comm b a hba]
                | cons r rs =>
                  rw [delNK_obj_descend es a (pr :: prs) v0 hva (by simp),
                    delNK_obj_descend es b (r :: rs) w0 hvb (by simp)]
                  rw [delNK_obj_descend _ b (r :: rs) _
                    (show lookupKey b (setKey es a
                        (_delete_nested_key_recursive v0 (pr :: prs)))
                      = some w0 by
                      rw [lookupKey_setKey, if_neg hba, hvb]) (by simp)]
                  rw [delNK_obj_descend _ a (pr :: prs) _
                    (show lookupKey a (setKey es b
                        (_delete_nested_key_recursive w0 (r :: rs)))
                      = some v0 by
                      rw [lookupKey_setKey, if_neg hab, hva]) (by simp)]
                  rw [setKey_comm a b hab]
  | harr items ih =>
    intro p q
    cases p with
    | nil => rw [delNK_nil, delNK_nil]
    | cons a ps =>
      cases q with
      | nil => rw [delNK_nil, delNK_nil]
      | cons b qs =>
        rw [delNK_arr items (a :: ps) (by simp),
          delNK_arr items (b :: qs) (by simp),
          delNK_arr (delListElems items (a :: ps)) (b :: qs) (by simp),
          delNK_arr (delListElems items (b :: qs)) (a :: ps) (by simp)]
        congr 1
        rw [delListElems_eq_map, delListElems_eq_map, delListElems_eq_map,
          delListElems_eq_map, List.map_map, List.map_map]
        refine List.map_congr_left fun x hx => ?_
        simp only [Function.comp]
        by_cases hobj : x.isObj
        · have h1 : (_delete_nested_key_recursive x (a :: ps)).isObj = true := by
            rw [delNK_isObj]; exact hobj
          have h2 : (_delete_nested_key_recursive x (b :: qs)).isObj = true := by
            rw [delNK_isObj]; exact hobj
          rw [if_pos hobj, if_pos hobj, if_pos h1, if_pos h2]
          exact ih x hx (a :: ps) (b :: qs)
        · simp [hobj]
  | hstr s =>
    intro p q
    have h : ∀ r : List String,
        _delete_nested_key_recursive (JVal.str s) r = JVal.str s :=
      fun r => delNK_scalar _ r rfl
    rw [h p, h q, h p]
  | hnum n =>
    intro p q
    have h : ∀ r : List String,
        _delete_nested_key_recursive (JVal.num n) r = JVal.num n :=
      fun r => delNK_scalar _ r rfl
    rw [h p, h q, h p]
  | hbool b =>
    intro p q
    have h : ∀ r : List String,
        _delete_nested_key_recursive (JVal.bool b) r = JVal.bool b :=
      fun r => delNK_scalar _ r rfl
    rw [h p, h q, h p]
  | hnull =>
    intro p q
    have h : ∀ r : List String,
        _delete_nested_key_recursive (JVal.null) r = JVal.null :=
      fun r => delNK_scalar _ r rfl
    rw [h p, h q, h p]

/-- A nested-path deletion is idempotent. -/
theorem delNK_idem :
    ∀ (v : JVal) (p : List String),
      _delete_nested_key_recursive (_delete_nested_key_recursive v p) p
        = _delete_nested_key_recursive v p := by
  intro v
  induction v using JVal.strongInduction with
  | hobj es ih =>
    intro p
    cases p with
    | nil => rw [delNK_nil, delNK_nil]
    | cons a ps =>
      cases hva : lookupKey a es with
      | none =>
        have h1 : _delete_nested_key_recursive (JVal.obj es) (a :: ps)
            = JVal.obj es := delNK_obj_absent _ _ _ hva
        rw [h1, h1]
      | some v0 =>
        cases ps with
        | nil =>
          rw [delNK_obj_last _ _ _ hva]
          rw [delNK_obj_absent _ _ _ (by rw [lookupKey_delKey, if_pos rfl])]
        | cons r rs =>
          rw [delNK_obj_descend _ _ _ _ hva (by simp)]
          rw [delNK_obj_descend _ a (r :: rs) _
            (show lookupKey a (setKey es a
                (_delete_nested_key_recursive v0 (r :: rs)))
              = some (_delete_nested_key_recursive v0 (r :: rs)) by
              rw [lookupKey_setKey, if_pos rfl, hva]; rfl) (by simp)]
          rw [setKey_setKey, ih a v0 (mem_of_lookupKey hva) (r :: rs)]
  | harr items ih =>
    intro p
    cases p with
    | nil => rw [delNK_nil, delNK_nil]
    | cons a ps =>
      rw [delNK_arr items (a :: ps) (by simp),
        delNK_arr (delListElems items (a :: ps)) (a :: ps) (by simp)]
      congr 1
      rw [delListElems_eq_map, delListElems_eq_map, List.map_map]
      refine List.map_congr_left fun x hx => ?_
      simp only [Function.comp]
      by_cases hobj : x.isObj
      · have h1 : (_delete_nested_key_recursive x (a :: ps)).isObj = true := by
          rw [delNK_isObj]; exact hobj
        rw [if_pos hobj, if_pos h1]
        exact ih x hx (a :: ps)
      · simp [hobj]
  | hstr s =>
    intro p
    have h : ∀ r : List String,
        _delete_nested_key_recursive (JVal.str s) r = JVal.str s :=
      fun r => delNK_scalar _ r rfl
    rw [h p, h p]
  | hnum n =>
    intro p
    have h : ∀ r : List String,
        _delete_nested_key_recursive (JVal.num n) r = JVal.num n :=
      fun r => delNK_scalar _ r rfl
    rw [h p, h p]
  | hbool b =>
    intro p
    have h : ∀ r : List String,
        _delete_nested_key_recursive (JVal.bool b) r = JVal.bool b :=
      fun r => delNK_scalar _ r rfl
    rw [h p, h p]
  | hnull =>
    intro p
    have h : ∀ r : List String,
        _delete_nested_key_recursive (JVal.null) r = JVal.null :=
      fun r => delNK_scalar _ r rfl
    rw [h p, h p]

/-! ## Idempotence of the redaction passes -/

theorem foldl_single_out {α β : Type} (f : α → β → α)
    (hcomm : ∀ a x y, f (f a x) y = f (f a y) x) :
    ∀ (l : List β) (a : α) (x : β), l.foldl f (f a x) = f (l.foldl f a) x := by
  intro l
  induction l with
  | nil => intro a x; rfl
  | cons y l ih =>
    intro a x
    simp only [List.foldl_cons]
    rw [hcomm, ih]

theorem foldl_idem_of {α β : Type} (f : α → β → α)
    (hcomm : ∀ a x y, f (f a x) y = f (f a y) x)
    (hidem : ∀ a x, f (f a x) x = f a x) :
    ∀ (l : List β) (a : α), l.foldl f (l.foldl f a) = l.foldl f a := by
  intro l
  induction l with
  | nil => intro a; rfl
  | cons x l ih =>
    intro a
    simp only [List.foldl_cons]
    rw [foldl_single_out f hcomm l a x, hidem,
      foldl_single_out f hcomm l (l.foldl f a) x, ih]

theorem foldl_foldl_comm {α β : Type} (f : α → β → α)
    (hcomm : ∀ a x y, f (f a x) y = f (f a y) x) :
    ∀ (l m : List β) (a : α),
      l.foldl f (m.foldl f a) = m.foldl f (l.foldl f a) := by
  intro l
  induction l with
  | nil => intro m a; rfl
  | cons x l ih =>
    intro m a
    simp only [List.foldl_cons]
    rw [← foldl_single_out f hcomm m a x, ih m (f a x)]

theorem delNKfold_comm (t : JVal) (p q : String) :
    _delete_nested_key_recursive
        (_delete_nested_key_recursive t (p.splitOn ".")) (q.splitOn ".")
      = _delete_nested_key_recursive
          (_delete_nested_key_recursive t (q.splitOn ".")) (p.splitOn ".") :=
  delNK_comm t (p.splitOn ".") (q.splitOn ".")

theorem afpd_idem (target : JVal) (paths : List String) :
    applyFieldPathDeletions (applyFieldPathDeletions target paths) paths
      = applyFieldPathDeletions target paths :=
  foldl_idem_of _ (fun a x y => delNKfold_comm a x y)
    (fun a x => delNK_idem _ _) paths target

theorem afpd_comm (target : JVal) (p q : List String) :
    applyFieldPathDeletions (applyFieldPathDeletions target p) q
      = applyFieldPathDeletions (applyFieldPathDeletions target q) p :=
  foldl_foldl_comm _ (fun a x y => delNKfold_comm a x y) q p target

theorem afpd_isDictOrList (target : JVal) (paths : List String) :
    (applyFieldPathDeletions target paths).isDictOrList
      = target.isDictOrList := by
  induction paths generalizing target with
  | nil => rfl
  | cons p ps ih =>
    show (applyFieldPathDeletions
        (_delete_nested_key_recursive target (p.splitOn ".")) ps).isDictOrList
      = target.isDictOrList
    rw [ih, delNK_isDictOrList]

theorem tfeStep_none (fo : List (String × JVal)) (x : String × List String)
    (h : lookupKey x.1 fo = none) : tfeStep fo x = fo := by
  unfold tfeStep
  rw [h]

theorem tfeStep_some_false (fo : List (String × JVal))
    (x : String × List String) (t : JVal) (h : lookupKey x.1 fo = some t)
    (hg : ¬t.isDictOrList = true) : tfeStep fo x = fo := by
  unfold tfeStep
  rw [h]
  exact if_neg hg

theorem tfeStep_some_true (fo : List (String × JVal))
    (x : String × List String) (t : JVal) (h : lookupKey x.1 fo = some t)
    (hg : t.isDictOrList = true) :
    tfeStep fo x = setKey fo x.1 (applyFieldPathDeletions t x.2) := by
  unfold tfeStep
  rw [h]
  exact if_pos hg

theorem tfeStep_lookup_ne (fo : List (String × JVal))
    (x : String × List String) (c : String) (hc : ¬c = x.1) :
    lookupKey c (tfeStep fo x) = lookupKey c fo := by
  cases hl : lookupKey x.1 fo with
  | none => rw [tfeStep_none fo x hl]
  | some t =>
    by_cases hg : t.isDictOrList
    · rw [tfeStep_some_true fo x t hl hg, lookupKey_setKey, if_neg hc]
    · rw [tfeStep_some_false fo x t hl hg]

theorem tfeStep_idem (fo : List (String × JVal)) (x : String × List String) :
    tfeStep (tfeStep fo x) x = tfeStep fo x := by
  cases hl : lookupKey x.1 fo with
  | none => rw [tfeStep_none fo x hl, tfeStep_none fo x hl]
  | some t =>
    by_cases hg : t.isDictOrList
    · rw [tfeStep_some_true fo x t hl hg]
      have h2 : lookupKey x.1 (setKey fo x.1 (applyFieldPathDeletions t x.2))
          = some (applyFieldPathDeletions t x.2) := by
        rw [lookupKey_setKey, if_pos rfl, hl]
        rfl
      rw [tfeStep_some_true _ x _ h2
        (by rw [afpd_isDictOrList]; exact hg), afpd_idem, setKey_setKey]
    · rw [tfeStep_some_false fo x t hl hg, tfeStep_some_false fo x t hl hg]

theorem tfeStep_comm (fo : List (String × JVal))
    (x y : String × List String) :
    tfeStep (tfeStep fo x) y = tfeStep (tfeStep fo y) x := by
  by_cases hxy : x.1 = y.1
  · cases hl : lookupKey x.1 fo with
    | none =>
      have hly : lookupKey y.1 fo = none := by rw [← hxy]; exact hl
      have h1 : tfeStep fo x = fo := tfeStep_none fo x hl
      have h2 : tfeStep fo y = fo := tfeStep_none fo y hly
      rw [h1, h2, h1]
    | some t =>
      have hly : lookupKey y.1 fo = some t := by rw [← hxy]; exact hl
      by_cases hg : t.isDictOrList
      · have hgp : (applyFieldPathDeletions t x.2).isDictOrList = true := by
          rw [afpd_isDictOrList]; exact hg
        have hgq : (applyFieldPathDeletions t y.2).isDictOrList = true := by
          rw [afpd_isDictOrList]; exact hg
        have hlky : lookupKey y.1
            (setKey fo x.1 (applyFieldPathDeletions t x.2))
            = some (applyFieldPathDeletions t x.2) := by
          rw [← hxy, lookupKey_setKey, if_pos rfl, hl]
          rfl
        have hlkx : lookupKey x.1
            (setKey fo y.1 (applyFieldPathDeletions t y.2))
            = some (applyFieldPathDeletions t y.2) := by
          rw [hxy, lookupKey_setKey, if_pos rfl, hly]
          rfl
        conv_lhs => rw [tfeStep_some_true fo x t hl hg,
          tfeStep_some_true _ y _ hlky hgp, ← hxy, setKey_setKey]
        conv_rhs => rw [tfeStep_some_true fo y t hly hg,
          tfeStep_some_true _ x _ hlkx hgq, hxy, setKey_setKey, ← hxy]
        rw [afpd_comm]
      · have h1 : tfeStep fo x = fo := tfeStep_some_false fo x t hl hg
        have h2 : tfeStep fo y = fo := tfeStep_some_false fo y t hly hg
        rw [h1, h2, h1]
  · have hyx : ¬y.1 = x.1 := fun h => hxy h.symm
    cases hlx : lookupKey x.1 fo with
    | none =>
      rw [tfeStep_none fo x hlx,
        tfeStep_none (tfeStep fo y) x
          (by rw [tfeStep_lookup_ne fo y x.1 hxy]; exact hlx)]
    | some tx =>
      by_cases hgx : tx.isDictOrList
      · cases hly : lookupKey y.1 fo with
        | none =>
          rw [tfeStep_none fo y hly,
            tfeStep_none (tfeStep fo x) y
              (by rw [tfeStep_lookup_ne fo x y.1 hyx]; exact hly)]
        | some ty =>
          by_cases hgy : ty.isDictOrList
          · rw [tfeStep_some_true (tfeStep fo x) y ty
              (by rw [tfeStep_lookup_ne fo x y.1 hyx]; exact hly) hgy]
            rw [tfeStep_some_true (tfeStep fo y) x tx
              (by rw [tfeStep_lookup_ne fo y x.1 hxy]; exact hlx) hgx]
            rw [tfeStep_some_true fo x tx hlx hgx,
              tfeStep_some_true fo y ty hly hgy,
              setKey_comm x.1 y.1 hxy]
          · rw [tfeStep_some_false fo y ty hly hgy,
              tfeStep_some_false (tfeStep fo x) y ty
                (by rw [tfeStep_lookup_ne fo x y.1 hyx]; exact hly) hgy]
      · rw [tfeStep_some_false fo x tx hlx hgx,
          tfeStep_some_false (tfeStep fo y) x tx
            (by rw [tfeStep_lookup_ne fo y x.1 hxy]; exact hlx) hgx]

theorem applyTicketFieldExclusions_idem (tfe : List (String × List String))
    (fo : List (String × JVal)) :
    applyTicketFieldExclusions tfe (applyTicketFieldExclusions tfe fo)
      = applyTicketFieldExclusions tfe fo :=
  foldl_idem_of tfeStep tfeStep_comm tfeStep_idem tfe fo

theorem gexStep_eq (t : List (String × JVal)) (k : String) :
    gexStep t k = delKey k t := by
  unfold gexStep
  cases hl : lookupKey k t with
  | none =>
    rw [delKey_absent k t hl]
    simp
  | some v => simp

theorem gexStep_comm (t : List (String × JVal)) (a b : String) :
    gexStep (gexStep t a) b = gexStep (gexStep t b) a := by
  rw [gexStep_eq, gexStep_eq, gexStep_eq, gexStep_eq, delKey_comm]

theorem gexStep_idem (t : List (String × JVal)) (a : String) :
    gexStep (gexStep t a) a = gexStep t a := by
  rw [gexStep_eq, gexStep_eq, delKey_delKey_self]

theorem applyGlobalExclusions_idem (gex : List String)
    (t : List (String × JVal)) :
    applyGlobalExclusions gex (applyGlobalExclusions gex t)
      = applyGlobalExclusions gex t :=
  foldl_idem_of gexStep gexStep_comm gexStep_idem gex t

theorem applyGlobalExclusions_lookup (gex : List String) (a : String) :
    ∀ t, lookupKey a (applyGlobalExclusions gex t)
      = if a ∈ gex then none else lookupKey a t := by
  induction gex with
  | nil => intro t; simp [applyGlobalExclusions]
  | cons g gex ih =>
    intro t
    show lookupKey a (applyGlobalExclusions gex (gexStep t g)) = _
    rw [ih, gexStep_eq, lookupKey_delKey]
    by_cases hag : a = g
    · simp [hag]
    · by_cases hmem : a ∈ gex
      · simp [hmem, hag]
      · simp [hmem, hag]

theorem applyGlobalExclusions_setKey (gex : List String) (k : String)
    (hk : k ∉ gex) (v : JVal) :
    ∀ t, applyGlobalExclusions gex (setKey t k v)
      = setKey (applyGlobalExclusions gex t) k v := by
  induction gex with
  | nil => intro t; rfl
  | cons g gex ih =>
    intro t
    have hgk : ¬g = k :=
      fun h => hk (by rw [← h]; exact List.mem_cons_self g gex)
    have hk2 : k ∉ gex := fun h => hk (List.mem_cons_of_mem g h)
    show applyGlobalExclusions gex (gexStep (setKey t k v) g) = _
    rw [gexStep_eq, delKey_setKey_comm g k hgk, ih hk2 (delKey g t)]
    show _ = setKey (applyGlobalExclusions gex (gexStep t g)) k v
    rw [gexStep_eq]

theorem process_one_eq_fields (gex : List String)
    (tfe : List (String × List String)) (ticket : List (String × JVal))
    (fieldsObj : List (String × JVal))
    (h : lookupKey "fields" (applyGlobalExclusions gex ticket)
      = some (JVal.obj fieldsObj)) :
    process_one_ticket gex tfe ticket
      = setKey (applyGlobalExclusions gex ticket) "fields"
          (JVal.obj (applyTicketFieldExclusions tfe fieldsObj)) := by
  simp only [process_one_ticket]
  rw [h]

theorem process_one_eq_other (gex : List String)
    (tfe : List (String × List String)) (ticket : List (String × JVal))
    (h : ∀ fieldsObj, ¬lookupKey "fields" (applyGlobalExclusions gex ticket)
      = some (JVal.obj fieldsObj)) :
    process_one_ticket gex tfe ticket
      = applyGlobalExclusions gex ticket := by
  simp only [process_one_ticket]

theorem process_one_ticket_idem (gex : List String)
    (tfe : List (String × List String)) (ticket : List (String × JVal)) :
    process_one_ticket gex tfe (process_one_ticket gex tfe ticket)
      = process_one_ticket gex tfe ticket := by
  cases hf : lookupKey "fields" (applyGlobalExclusions gex ticket) with
  | none =>
    rw [process_one_eq_other gex tfe ticket
      (fun fo h => by rw [hf] at h; exact Option.noConfusion h)]
    rw [process_one_eq_other gex tfe (applyGlobalExclusions gex ticket)
      (fun fo h => by
        rw [applyGlobalExclusions_idem, hf] at h
        exact Option.noConfusion h)]
    rw [applyGlobalExclusions_idem]
  | some v =>
    cases v with
    | obj fieldsObj =>
      have hmem : "fields" ∉ gex := by
        intro hmem
        rw [applyGlobalExclusions_lookup, if_pos hmem] at hf
        exact Option.noConfusion hf
      rw [process_one_eq_fields gex tfe ticket fieldsObj hf]
      have hG : applyGlobalExclusions gex
          (setKey (applyGlobalExclusions gex ticket) "fields"
            (JVal.obj (applyTicketFieldExclusions tfe fieldsObj)))
          = setKey (applyGlobalExclusions gex ticket) "fields"
              (JVal.obj (applyTicketFieldExclusions tfe fieldsObj)) := by
        rw [applyGlobalExclusions_setKey gex "fields" hmem,
          applyGlobalExclusions_idem]
      have hf2 : lookupKey "fields" (applyGlobalExclusions gex
          (setKey (applyGlobalExclusions gex ticket) "fields"
            (JVal.obj (applyTicketFieldExclusions tfe fieldsObj))))
          = some (JVal.obj (applyTicketFieldExclusions tfe fieldsObj)) := by
        rw [hG, lookupKey_setKey, if_pos rfl, hf]
        rfl
      rw [process_one_eq_fields gex tfe _ _ hf2, hG,
        applyTicketFieldExclusions_idem, setKey_setKey]
    | arr its =>
      rw [process_one_eq_other gex tfe ticket
        (fun fo h => by rw [hf] at h; simp at h)]
      rw [process_one_eq_other gex tfe (applyGlobalExclusions gex ticket)
        (fun fo h => by rw [applyGlobalExclusions_idem, hf] at h; simp at h)]
      rw [applyGlobalExclusions_idem]
    | str s =>
      rw [process_one_eq_other gex tfe ticket
        (fun fo h => by rw [hf] at h; simp at h)]
      rw [process_one_eq_other gex tfe (applyGlobalExclusions gex ticket)
        (fun fo h => by rw [applyGlobalExclusions_idem, hf] at h; simp at h)]
      rw [applyGlobalExclusions_idem]
    | num n =>
      rw [process_one_eq_other gex tfe ticket
        (fun fo h => by rw [hf] at h; simp at h)]
      rw [process_one_eq_other gex tfe (applyGlobalExclusions gex ticket)
        (fun fo h => by rw [applyGlobalExclusions_idem, hf] at h; simp at h)]
      rw [applyGlobalExclusions_idem]
    | bool b =>
      rw [process_one_eq_other gex tfe ticket
        (fun fo h => by rw [hf] at h; simp at h)]
      rw [process_one_eq_other gex tfe (applyGlobalExclusions gex ticket)
        (fun fo h => by rw [applyGlobalExclusions_idem, hf] at h; simp at h)]
      rw [applyGlobalExclusions_idem]
    | null =>
      rw [process_one_eq_other gex tfe ticket
        (fun fo h => by rw [hf] at h; simp at h)]
      rw [process_one_eq_other gex tfe (applyGlobalExclusions gex ticket)
        (fun fo h => by rw [applyGlobalExclusions_idem, hf] at h; simp at h)]
      rw [applyGlobalExclusions_idem]

theorem process_elem_idem (gex : List String)
    (tfe : List (String × List String)) (t : JVal) :
    process_elem gex tfe (process_elem gex tfe t) = process_elem gex tfe t := by
  cases t with
  | obj entries =>
    show process_elem gex tfe (JVal.obj (process_one_ticket gex tfe entries))
      = JVal.obj (process_one_ticket gex tfe entries)
    show JVal.obj (process_one_ticket gex tfe (process_one_ticket gex tfe entries))
      = JVal.obj (process_one_ticket gex tfe entries)
    rw [process_one_ticket_idem]
  | arr its => rfl
  | str s => rfl
  | num n => rfl
  | bool b => rfl
  | null => rfl

theorem isEmpty_map_eq {α β : Type} (f : α → β) (l : List α) :
    (l.map f).isEmpty = l.isEmpty := by
  cases l <;> simp

/-- C6.  Redaction is idempotent: running `process_tickets_data` twice with
the same exclusion spec leaves the batch exactly as one run leaves it. -/
theorem process_tickets_data_idempotent (tickets : List JVal)
    (config : ProcessConfig) :
    process_tickets_data (process_tickets_data tickets config) config
      = process_tickets_data tickets config := by
  by_cases ht : tickets.isEmpty
  · have h1 : process_tickets_data tickets config = tickets := by
      simp only [process_tickets_data]
      rw [if_pos ht]
    rw [h1, h1]
  · by_cases hr : ((config.global_key_exclusions.getD []).isEmpty
        && (config.ticket_field_exclusions.getD []).isEmpty) = true
    · have h1 : process_tickets_data tickets config = tickets := by
        simp only [process_tickets_data]
        rw [if_neg ht, if_pos hr]
      rw [h1, h1]
    · have h1 : process_tickets_data tickets config
          = tickets.map (process_elem (config.global_key_exclusions.getD [])
              (config.ticket_field_exclusions.getD [])) := by
        simp only [process_tickets_data]
        rw [if_neg ht, if_neg hr]
      rw [h1]
      have h2 : ¬(tickets.map (process_elem
          (config.global_key_exclusions.getD [])
          (config.ticket_field_exclusions.getD []))).isEmpty = true := by
        rw [isEmpty_map_eq]
        exact ht
      simp only [process_tickets_data]
      rw [if_neg h2, if_neg hr, List.map_map]
      refine List.map_congr_left fun t ht2 => ?_
      exact process_elem_idem _ _ t

/-- C9.  Any element of the batch that is not a mapping is skipped whole by
the redactor: it sits unchanged at its index in the output and no exclusion
rule is applied to it. -/
theorem process_skips_non_dict (tickets : List JVal) (config : ProcessConfig)
    (i : Nat) (t : JVal) (hi : tickets.get? i = some t)
    (ht : t.isObj = false) :
    (process_tickets_data tickets config).get? i = some t := by
  by_cases he : tickets.isEmpty
  · have h1 : process_tickets_data tickets config = tickets := by
      simp only [process_tickets_data]
      rw [if_pos he]
    rw [h1]
    exact hi
  · by_cases hr : ((config.global_key_exclusions.getD []).isEmpty
        && (config.ticket_field_exclusions.getD []).isEmpty) = true
    · have h1 : process_tickets_data tickets config = tickets := by
        simp only [process_tickets_data]
        rw [if_neg he, if_pos hr]
      rw [h1]
      exact hi
    · have h1 : process_tickets_data tickets config
          = tickets.map (process_elem (config.global_key_exclusions.getD [])
              (config.ticket_field_exclusions.getD [])) := by
        simp only [process_tickets_data]
        rw [if_neg he, if_neg hr]
      rw [h1, List.get?_map, hi]
      have hskip : process_elem (config.global_key_exclusions.getD [])
          (config.ticket_field_exclusions.getD []) t = t := by
        cases t with
        | obj entries => simp [JVal.isObj] at ht
        | arr its => rfl
        | str s => rfl
        | num n => rfl
        | bool b => rfl
        | null => rfl
      show some (process_elem (config.global_key_exclusions.getD [])
        (config.ticket_field_exclusions.getD []) t) = some t
      rw [hskip]

/-! ## The exception-aware redactor never raises -/

theorem delListElems_cons (t : JVal) (its : List JVal) (segs : List String) :
    delListElems (t :: its) segs
      = (if t.isObj then _delete_nested_key_recursive t segs else t)
          :: delListElems its segs := by
  rw [delListElems_eq_map, delListElems_eq_map, List.map_cons]

theorem delNKE_nil (v : JVal) :
    delete_nested_key_exc v [] = Except.ok v := by
  cases v <;> simp [delete_nested_key_exc]

theorem delNKE_scalar (v : JVal) (segs : List String)
    (h : v.isScalar = true) :
    delete_nested_key_exc v segs = Except.ok v := by
  cases segs with
  | nil => exact delNKE_nil v
  | cons s ss =>
    cases v <;> simp_all [JVal.isScalar, delete_nested_key_exc]

theorem delNKE_arr (items : List JVal) (segs : List String) (h : segs ≠ []) :
    delete_nested_key_exc (JVal.arr items) segs
      = match delListElemsE items segs with
        | Except.ok items' => Except.ok (JVal.arr items')
        | Except.error e => Except.error e := by
  cases segs with
  | nil => exact absurd rfl h
  | cons s ss => simp [delete_nested_key_exc]

theorem delNKE_obj_absent (entries : List (String × JVal)) (k : String)
    (rest : List String) (h : lookupKey k entries = none) :
    delete_nested_key_exc (JVal.obj entries) (k :: rest)
      = Except.ok (JVal.obj entries) := by
  simp [delete_nested_key_exc, h]

theorem delNKE_obj_last (entries : List (String × JVal)) (k : String)
    (v : JVal) (h : lookupKey k entries = some v) :
    delete_nested_key_exc (JVal.obj entries) [k]
      = Except.ok (JVal.obj (delKey k entries)) := by
  simp [delete_nested_key_exc, h, delKeyE]

theorem delNKE_obj_descend (entries : List (String × JVal)) (k : String)
    (rest : List String) (v : JVal) (h : lookupKey k entries = some v)
    (hr : rest ≠ []) :
    delete_nested_key_exc (JVal.obj entries) (k :: rest)
      = match delete_nested_key_exc v rest with
        | Except.ok v' => Except.ok (JVal.obj (setKey entries k v'))
        | Except.error e => Except.error e := by
  have hd : dictGetE k entries = Except.ok v := by
    unfold dictGetE
    rw [h]
  simp only [delete_nested_key_exc]
  rw [if_neg (show ¬(lookupKey k entries).isNone = true by rw [h]; simp)]
  rw [if_neg hr]
  split
  · rename_i e heq
    rw [hd] at heq
    cases heq
  · rename_i v2 heq
    rw [hd] at heq
    cases heq
    rfl

/-- The recursive deletion in `Except` never raises and agrees with the pure
embedding: every raising dict operation is guarded in the source. -/
theorem delNKE_eq :
    ∀ (v : JVal) (segs : List String),
      delete_nested_key_exc v segs
        = Except.ok (_delete_nested_key_recursive v segs) := by
  intro v
  induction v using JVal.strongInduction with
  | hobj entries ih =>
    intro segs
    cases segs with
    | nil => rw [delNKE_nil, delNK_nil]
    | cons k rest =>
      cases hv : lookupKey k entries with
      | none => rw [delNKE_obj_absent _ _ _ hv, delNK_obj_absent _ _ _ hv]
      | some v =>
        cases rest with
        | nil => rw [delNKE_obj_last _ _ _ hv, delNK_obj_last _ _ _ hv]
        | cons r rs =>
          rw [delNKE_obj_descend _ _ _ _ hv (by simp),
            delNK_obj_descend _ _ _ _ hv (by simp),
            ih k v (mem_of_lookupKey hv) (r :: rs)]
  | harr items ih =>
    intro segs
    cases segs with
    | nil => rw [delNKE_nil, delNK_nil]
    | cons s ss =>
      rw [delNKE_arr _ _ (by simp), delNK_arr _ _ (by simp)]
      have hlist : delListElemsE items (s :: ss)
          = Except.ok (delListElems items (s :: ss)) := by
        induction items with
        | nil => simp [delListElemsE, delListElems]
        | cons it its ihl =>
          have ihl2 := ihl (fun x hx => ih x (List.mem_cons_of_mem it hx))
          cases it with
          | obj es2 =>
            rw [show delListElemsE (JVal.obj es2 :: its) (s :: ss)
                = match delete_nested_key_exc (JVal.obj es2) (s :: ss) with
                  | Except.ok v' =>
                      (match delListElemsE its (s :: ss) with
                       | Except.ok items' => Except.ok (v' :: items')
                       | Except.error e => Except.error e)
                  | Except.error e => Except.error e from by
              simp [delListElemsE]]
            rw [ih (JVal.obj es2) (List.mem_cons_self _ _) (s :: ss), ihl2,
              delListElems_cons]
            simp [JVal.isObj]
          | arr its2 =>
            rw [show delListElemsE (JVal.arr its2 :: its) (s :: ss)
                = match delListElemsE its (s :: ss) with
                  | Except.ok items' => Except.ok (JVal.arr its2 :: items')
                  | Except.error e => Except.error e from by
              simp [delListElemsE]]
            rw [ihl2, delListElems_cons]
            simp [JVal.isObj]
          | str s2 =>
            rw [show delListElemsE (JVal.str s2 :: its) (s :: ss)
                = match delListElemsE its (s :: ss) with
                  | Except.ok items' => Except.ok (JVal.str s2 :: items')
                  | Except.error e => Except.error e from by
              simp [delListElemsE]]
            rw [ihl2, delListElems_cons]
            simp [JVal.isObj]
          | num n2 =>
            rw [show delListElemsE (JVal.num n2 :: its) (s :: ss)
                = match delListElemsE its (s :: ss) with
                  | Except.ok items' => Except.ok (JVal.num n2 :: items')
                  | Except.error e => Except.error e from by
              simp [delListElemsE]]
            rw [ihl2, delListElems_cons]
            simp [JVal.isObj]
          | bool b2 =>
            rw [show delListElemsE (JVal.bool b2 :: its) (s :: ss)
                = match delListElemsE its (s :: ss) with
                  | Except.ok items' => Except.ok (JVal.bool b2 :: items')
                  | Except.error e => Except.error e from by
              simp [delListElemsE]]
            rw [ihl2, delListElems_cons]
            simp [JVal.isObj]
          | null =>
            rw [show delListElemsE (JVal.null :: its) (s :: ss)
                = match delListElemsE its (s :: ss) with
                  | Except.ok items' => Except.ok (JVal.null :: items')
                  | Except.error e => Except.error e from by
              simp [delListElemsE]]
            rw [ihl2, delListElems_cons]
            simp [JVal.isObj]
      rw [hlist]
  | hstr s => intro segs; rw [delNKE_scalar _ _ (by rfl), delNK_scalar _ _ (by rfl)]
  | hnum n => intro segs; rw [delNKE_scalar _ _ (by rfl), delNK_scalar _ _ (by rfl)]
  | hbool b => intro segs; rw [delNKE_scalar _ _ (by rfl), delNK_scalar _ _ (by rfl)]
  | hnull => intro segs; rw [delNKE_scalar _ _ (by rfl), delNK_scalar _ _ (by rfl)]

theorem afpdE_eq (paths : List String) :
    ∀ target, applyFieldPathDeletionsE target paths
      = Except.ok (applyFieldPathDeletions target paths) := by
  induction paths with
  | nil => intro target; rfl
  | cons p ps ih =>
    intro target
    show (match delete_nested_key_exc target (p.splitOn ".") with
      | Except.ok target' => applyFieldPathDeletionsE target' ps
      | Except.error e => Except.error e) = _
    rw [delNKE_eq]
    show applyFieldPathDeletionsE
        (_delete_nested_key_recursive target (p.splitOn ".")) ps = _
    rw [ih]
    rfl

theorem agexE_eq (gex : List String) :
    ∀ t, applyGlobalExclusionsE gex t
      = Except.ok (applyGlobalExclusions gex t) := by
  induction gex with
  | nil => intro t; rfl
  | cons g gex ih =>
    intro t
    show (if (lookupKey g t).isSome then
        match delKeyE g t with
        | Except.ok t' => applyGlobalExclusionsE gex t'
        | Except.error _ => applyGlobalExclusionsE gex t
      else applyGlobalExclusionsE gex t) = _
    by_cases hs : (lookupKey g t).isSome
    · rw [if_pos hs]
      have hd : delKeyE g t = Except.ok (delKey g t) := by
        unfold delKeyE
        rw [if_pos hs]
      rw [hd]
      show applyGlobalExclusionsE gex (delKey g t) = _
      rw [ih]
      show _ = Except.ok (applyGlobalExclusions gex (gexStep t g))
      rw [gexStep_eq]
    · rw [if_neg hs]
      rw [ih]
      show _ = Except.ok (applyGlobalExclusions gex (gexStep t g))
      have : gexStep t g = t := by
        unfold gexStep
        rw [if_neg hs]
      rw [this]

theorem atfeE_eq (tfe : List (String × List String)) :
    ∀ fo, applyTicketFieldExclusionsE tfe fo
      = Except.ok (applyTicketFieldExclusions tfe fo) := by
  induction tfe with
  | nil => intro fo; rfl
  | cons x tfe ih =>
    intro fo
    show (if (lookupKey x.1 fo).isSome then
        match dictGetE x.1 fo with
        | Except.error e => Except.error e
        | Except.ok target =>
            if target.isDictOrList then
              match applyFieldPathDeletionsE target x.2 with
              | Except.ok target' =>
                  applyTicketFieldExclusionsE tfe (setKey fo x.1 target')
              | Except.error e => Except.error e
            else applyTicketFieldExclusionsE tfe fo
      else applyTicketFieldExclusionsE tfe fo) = _
    cases hl : lookupKey x.1 fo with
    | none =>
      rw [if_neg (by simp), ih]
      show _ = Except.ok (applyTicketFieldExclusions tfe (tfeStep fo x))
      rw [tfeStep_none fo x hl]
    | some target =>
      rw [if_pos (by simp)]
      have hd : dictGetE x.1 fo = Except.ok target := by
        unfold dictGetE
        rw [hl]
      rw [hd]
      show (if target.isDictOrList = true then
          match applyFieldPathDeletionsE target x.2 with
          | Except.ok target' =>
              applyTicketFieldExclusionsE tfe (setKey fo x.1 target')
          | Except.error e => Except.error e
        else applyTicketFieldExclusionsE tfe fo) = _
      by_cases hg : target.isDictOrList
      · rw [if_pos hg, afpdE_eq]
        show applyTicketFieldExclusionsE tfe
            (setKey fo x.1 (applyFieldPathDeletions target x.2)) = _
        rw [ih]
        show _ = Except.ok (applyTicketFieldExclusions tfe (tfeStep fo x))
        rw [tfeStep_some_true fo x target hl hg]
      · rw [if_neg hg, ih]
        show _ = Except.ok (applyTicketFieldExclusions tfe (tfeStep fo x))
        rw [tfeStep_some_false fo x target hl hg]

theorem process_one_E_eq (gex : List String)
    (tfe : List (String × List String)) (ticket : List (String × JVal)) :
    process_one_ticket_exc gex tfe ticket
      = Except.ok (process_one_ticket gex tfe ticket) := by
  unfold process_one_ticket_exc
  rw [agexE_eq]
  have hshape : ∀ r : List (String × JVal),
      (match Except.ok (applyGlobalExclusions gex ticket) with
        | Except.error e => Except.error e
        | Except.ok t1 =>
            match lookupKey "fields" t1 with
            | some (JVal.obj fieldsObj) =>
                (match applyTicketFieldExclusionsE tfe fieldsObj with
                 | Except.ok fieldsObj' =>
                     Except.ok (setKey t1 "fields" (JVal.obj fieldsObj'))
                 | Except.error e => Except.error e)
            | _ => Except.ok t1)
      = (match lookupKey "fields" (applyGlobalExclusions gex ticket) with
        | some (JVal.obj fieldsObj) =>
            (match applyTicketFieldExclusionsE tfe fieldsObj with
             | Except.ok fieldsObj' =>
                 Except.ok (setKey (applyGlobalExclusions gex ticket) "fields"
                   (JVal.obj fieldsObj'))
             | Except.error e => Except.error e)
        | _ => Except.ok (applyGlobalExclusions gex ticket)) :=
    fun _ => rfl
  rw [hshape []]
  cases hf : lookupKey "fields" (applyGlobalExclusions gex ticket) with
  | none =>
    rw [process_one_eq_other gex tfe ticket
      (fun fo h => by rw [hf] at h; exact Option.noConfusion h)]
  | some v =>
    cases v with
    | obj fieldsObj =>
      show (match applyTicketFieldExclusionsE tfe fieldsObj with
        | Except.ok fieldsObj' =>
            Except.ok (setKey (applyGlobalExclusions gex ticket) "fields"
              (JVal.obj fieldsObj'))
        | Except.error e => Except.error e)
        = Except.ok (process_one_ticket gex tfe ticket)
      rw [atfeE_eq, process_one_eq_fields gex tfe ticket fieldsObj hf]
    | arr its =>
      rw [process_one_eq_other gex tfe ticket
        (fun fo h => by rw [hf] at h; simp at h)]
    | str s =>
      rw [process_one_eq_other gex tfe ticket
        (fun fo h => by rw [hf] at h; simp at h)]
    | num n =>
      rw [process_one_eq_other gex tfe ticket
        (fun fo h => by rw [hf] at h; simp at h)]
    | bool b =>
      rw [process_one_eq_other gex tfe ticket
        (fun fo h => by rw [hf] at h; simp at h)]
    | null =>
      rw [process_one_eq_other gex tfe ticket
        (fun fo h => by rw [hf] at h; simp at h)]

/-- C5.  Redaction completes without raising for every batch and every
exclusion spec: the `Except` embedding — where subscripting or deleting a
missing dict key raises `KeyError` exactly as in Python — always returns
`ok`, and with the very result of the pure redactor.  Missing keys, absent
path prefixes and type mismatches are silently skipped. -/
theorem redaction_never_raises (tickets : List JVal) (config : ProcessConfig) :
    process_tickets_data_exc tickets config
      = Except.ok (process_tickets_data tickets config) := by
  by_cases ht : tickets.isEmpty
  · simp only [process_tickets_data_exc, process_tickets_data]
    rw [if_pos ht, if_pos ht]
  · by_cases hr : ((config.global_key_exclusions.getD []).isEmpty
        && (config.ticket_field_exclusions.getD []).isEmpty) = true
    · simp only [process_tickets_data_exc, process_tickets_data]
      rw [if_neg ht, if_neg ht, if_pos hr, if_pos hr]
    · simp only [process_tickets_data_exc, process_tickets_data]
      rw [if_neg ht, if_neg ht, if_neg hr, if_neg hr]
      clear ht
      induction tickets with
      | nil => rfl
      | cons t ts ihts =>
        rw [List.mapM_cons]
        have helem : (match t with
            | JVal.obj entries =>
                (match process_one_ticket_exc
                    (config.global_key_exclusions.getD [])
                    (config.ticket_field_exclusions.getD []) entries with
                 | Except.ok entries' => Except.ok (JVal.obj entries')
                 | Except.error e => Except.error e)
            | other => Except.ok other)
            = Except.ok (process_elem (config.global_key_exclusions.getD [])
                (config.ticket_field_exclusions.getD []) t) := by
          cases t with
          | obj entries =>
            show (match process_one_ticket_exc
                (config.global_key_exclusions.getD [])
                (config.ticket_field_exclusions.getD []) entries with
              | Except.ok entries' => Except.ok (JVal.obj entries')
              | Except.error e => Except.error e)
              = Except.ok (process_elem (config.global_key_exclusions.getD [])
                  (config.ticket_field_exclusions.getD []) (JVal.obj entries))
            rw [process_one_E_eq]
            rfl
          | arr its => rfl
          | str s => rfl
          | num n => rfl
          | bool b => rfl
          | null => rfl
        rw [helem]
        simp only [List.map_cons]
        cases hm : ts.mapM (fun ticket =>
            match ticket with
            | JVal.obj entries =>
                (match process_one_ticket_exc
                    (config.global_key_exclusions.getD [])
                    (config.ticket_field_exclusions.getD []) entries with
                 | Except.ok entries' => Except.ok (JVal.obj entries')
                 | Except.error e => Except.error e)
            | other => Except.ok other) with
        | ok l =>
          rw [hm] at ihts
          cases ihts
          simp [Except.bind, Except.pure, hm]
          rfl
        | error e =>
          rw [hm] at ihts
          cases ihts

/-! ## Frame and no-addition lemmas for the whole redactor -/

theorem afpd_frame (paths : List String) :
    ∀ (target : JVal) (pos : List Step),
      (∀ p ∈ paths, touchesPath (p.splitOn ".") pos = false) →
      getAt (applyFieldPathDeletions target paths) pos = getAt target pos := by
  induction paths with
  | nil => intro target pos _; rfl
  | cons p ps ih =>
    intro target pos h
    show getAt (applyFieldPathDeletions
      (_delete_nested_key_recursive target (p.splitOn ".")) ps) pos = _
    rw [ih _ pos (fun q hq => h q (List.mem_cons_of_mem p hq)),
      delNK_frame target (p.splitOn ".") pos (h p (List.mem_cons_self p ps))]

theorem afpd_noadd (paths : List String) :
    ∀ (target : JVal) (pos : List Step) (w : JVal),
      getAt (applyFieldPathDeletions target paths) pos = some w →
      ∃ w0, getAt target pos = some w0 ∧ (w.isScalar = true → w0 = w) := by
  induction paths with
  | nil => intro target pos w h; exact ⟨w, h, fun _ => rfl⟩
  | cons p ps ih =>
    intro target pos w h
    have h2 : getAt (applyFieldPathDeletions
        (_delete_nested_key_recursive target (p.splitOn ".")) ps) pos
        = some w := h
    obtain ⟨w1, hw1, hs1⟩ := ih _ pos w h2
    obtain ⟨w0, hw0, hs0⟩ := delNK_noadd target (p.splitOn ".") pos w1 hw1
    refine ⟨w0, hw0, fun hsw => ?_⟩
    have hw1w : w1 = w := hs1 hsw
    rw [hs0 (by rw [hw1w]; exact hsw), hw1w]

theorem tfeStep_frame (fes : List (String × JVal)) (x : String × List String)
    (mk : String) (pos : List Step)
    (hx : x.1 = mk → ∀ p ∈ x.2, touchesPath (p.splitOn ".") pos = false) :
    getAt (JVal.obj (tfeStep fes x)) (Step.key mk :: pos)
      = getAt (JVal.obj fes) (Step.key mk :: pos) := by
  cases hlx : lookupKey x.1 fes with
  | none => rw [tfeStep_none fes x hlx]
  | some t =>
    by_cases hg : t.isDictOrList
    · rw [tfeStep_some_true fes x t hlx hg]
      by_cases hmx : mk = x.1
      · have hset : lookupKey mk
            (setKey fes x.1 (applyFieldPathDeletions t x.2))
            = some (applyFieldPathDeletions t x.2) := by
          rw [lookupKey_setKey, if_pos hmx, hlx]
          rfl
        have hmk : lookupKey mk fes = some t := by rw [hmx]; exact hlx
        rw [getAt_obj_key_some _ _ _ _ hset, getAt_obj_key_some _ _ _ _ hmk,
          afpd_frame x.2 t pos (hx hmx.symm)]
      · have hset : lookupKey mk
            (setKey fes x.1 (applyFieldPathDeletions t x.2))
            = lookupKey mk fes := by
          rw [lookupKey_setKey, if_neg hmx]
        cases hmk : lookupKey mk fes with
        | none =>
          rw [getAt_obj_key_none _ _ _ (hset.trans hmk),
            getAt_obj_key_none _ _ _ hmk]
        | some u =>
          rw [getAt_obj_key_some _ _ _ _ (hset.trans hmk),
            getAt_obj_key_some _ _ _ _ hmk]
    · rw [tfeStep_some_false fes x t hlx hg]

theorem atfe_frame (tfe : List (String × List String)) :
    ∀ (fes : List (String × JVal)) (mk : String) (pos : List Step),
      (∀ x ∈ tfe, x.1 = mk →
        ∀ p ∈ x.2, touchesPath (p.splitOn ".") pos = false) →
      getAt (JVal.obj (applyTicketFieldExclusions tfe fes))
          (Step.key mk :: pos)
        = getAt (JVal.obj fes) (Step.key mk :: pos) := by
  induction tfe with
  | nil => intro fes mk pos _; rfl
  | cons x tfe ih =>
    intro fes mk pos h
    show getAt (JVal.obj (applyTicketFieldExclusions tfe (tfeStep fes x)))
        (Step.key mk :: pos) = _
    rw [ih (tfeStep fes x) mk pos
      (fun y hy => h y (List.mem_cons_of_mem x hy)),
      tfeStep_frame fes x mk pos (h x (List.mem_cons_self x tfe))]

theorem tfeStep_noadd (fes : List (String × JVal)) (x : String × List String)
    (pos : List Step) (w : JVal)
    (h : getAt (JVal.obj (tfeStep fes x)) pos = some w) :
    ∃ w0, getAt (JVal.obj fes) pos = some w0 ∧ (w.isScalar = true → w0 = w) := by
  cases hlx : lookupKey x.1 fes with
  | none =>
    rw [tfeStep_none fes x hlx] at h
    exact ⟨w, h, fun _ => rfl⟩
  | some t =>
    by_cases hg : t.isDictOrList
    · rw [tfeStep_some_true fes x t hlx hg] at h
      cases pos with
      | nil =>
        rw [getAt_nil] at h
        cases h
        exact ⟨JVal.obj fes, getAt_nil _, by simp [JVal.isScalar]⟩
      | cons st pos =>
        cases st with
        | idx i => rw [getAt_obj_idx] at h; cases h
        | key c =>
          by_cases hcx : c = x.1
          · have hset : lookupKey c
                (setKey fes x.1 (applyFieldPathDeletions t x.2))
                = some (applyFieldPathDeletions t x.2) := by
              rw [lookupKey_setKey, if_pos hcx, hlx]
              rfl
            rw [getAt_obj_key_some _ _ _ _ hset] at h
            obtain ⟨w0, hw0, hs0⟩ := afpd_noadd x.2 t pos w h
            have hmk : lookupKey c fes = some t := by rw [hcx]; exact hlx
            exact ⟨w0, by rw [getAt_obj_key_some _ _ _ _ hmk]; exact hw0, hs0⟩
          · have hset : lookupKey c
                (setKey fes x.1 (applyFieldPathDeletions t x.2))
                = lookupKey c fes := by
              rw [lookupKey_setKey, if_neg hcx]
            cases hmk : lookupKey c fes with
            | none =>
              rw [getAt_obj_key_none _ _ _ (hset.trans hmk)] at h
              cases h
            | some u =>
              rw [getAt_obj_key_some _ _ _ _ (hset.trans hmk)] at h
              rw [getAt_obj_key_some _ _ _ _ hmk]
              exact ⟨w, h, fun _ => rfl⟩
    · rw [tfeStep_some_false fes x t hlx hg] at h
      exact ⟨w, h, fun _ => rfl⟩

theorem atfe_noadd (tfe : List (String × List String)) :
    ∀ (fes : List (String × JVal)) (pos : List Step) (w : JVal),
      getAt (JVal.obj (applyTicketFieldExclusions tfe fes)) pos = some w →
      ∃ w0, getAt (JVal.obj fes) pos = some w0
        ∧ (w.isScalar = true → w0 = w) := by
  induction tfe with
  | nil => intro fes pos w h; exact ⟨w, h, fun _ => rfl⟩
  | cons x tfe ih =>
    intro fes pos w h
    have h2 : getAt (JVal.obj (applyTicketFieldExclusions tfe
        (tfeStep fes x))) pos = some w := h
    obtain ⟨w1, hw1, hs1⟩ := ih (tfeStep fes x) pos w h2
    obtain ⟨w0, hw0, hs0⟩ := tfeStep_noadd fes x pos w1 hw1
    refine ⟨w0, hw0, fun hsw => ?_⟩
    have hw1w : w1 = w := hs1 hsw
    rw [hs0 (by rw [hw1w]; exact hsw), hw1w]

theorem gex_lookup_value (gex : List String) (g : String)
    (t : List (String × JVal)) (u : JVal)
    (h : lookupKey g (applyGlobalExclusions gex t) = some u) :
    lookupKey g t = some u ∧ g ∉ gex := by
  rw [applyGlobalExclusions_lookup] at h
  by_cases hmem : g ∈ gex
  · rw [if_pos hmem] at h
    cases h
  · rw [if_neg hmem] at h
    exact ⟨h, hmem⟩

theorem touchesConfig_nil (gex : List String)
    (tfe : List (String × List String)) :
    touchesConfig gex tfe [] = true := rfl

theorem touchesConfig_idx (gex : List String)
    (tfe : List (String × List String)) (i : Nat) (pos : List Step) :
    touchesConfig gex tfe (Step.idx i :: pos) = false := rfl

theorem touchesConfig_key (gex : List String)
    (tfe : List (String × List String)) (g : String) (pos : List Step) :
    touchesConfig gex tfe (Step.key g :: pos)
      = (gex.contains g ||
        (g == "fields" &&
          (match pos with
           | [] => !tfe.isEmpty
           | Step.idx _ :: _ => false
           | Step.key mk :: pos2 =>
               tfe.any fun mkps =>
                 mkps.1 == mk && mkps.2.any fun p =>
                   touchesPath (p.splitOn ".") pos2))) := rfl

theorem process_one_frame (gex : List String)
    (tfe : List (String × List String)) (entries : List (String × JVal))
    (pos : List Step) (h : touchesConfig gex tfe pos = false) :
    getAt (JVal.obj (process_one_ticket gex tfe entries)) pos
      = getAt (JVal.obj entries) pos := by
  cases pos with
  | nil => rw [touchesConfig_nil] at h; cases h
  | cons st pos =>
    cases st with
    | idx i => rw [getAt_obj_idx, getAt_obj_idx]
    | key g =>
      rw [touchesConfig_key] at h
      have hg : gex.contains g = false := by
        cases hcg : gex.contains g
        · rfl
        · rw [hcg] at h
          simp at h
      have hmem : g ∉ gex := by
        intro hm
        simp at hg
        exact hg hm
      have hGlookup : lookupKey g (applyGlobalExclusions gex entries)
          = lookupKey g entries := by
        rw [applyGlobalExclusions_lookup, if_neg hmem]
      cases hf : lookupKey "fields" (applyGlobalExclusions gex entries) with
      | none =>
        rw [process_one_eq_other gex tfe entries
          (fun fo hh => by rw [hf] at hh; exact Option.noConfusion hh)]
        cases hv : lookupKey g entries with
        | none =>
          rw [getAt_obj_key_none _ _ _ (hGlookup.trans hv),
            getAt_obj_key_none _ _ _ hv]
        | some u =>
          rw [getAt_obj_key_some _ _ _ _ (hGlookup.trans hv),
            getAt_obj_key_some _ _ _ _ hv]
      | some v =>
        cases v with
        | obj fes =>
          rw [process_one_eq_fields gex tfe entries fes hf]
          by_cases hgf : g = "fields"
          · subst hgf
            obtain ⟨hfe, hfmem⟩ := gex_lookup_value gex "fields" entries _ hf
            have hsetlookup : lookupKey "fields" (setKey
                (applyGlobalExclusions gex entries) "fields"
                (JVal.obj (applyTicketFieldExclusions tfe fes)))
                = some (JVal.obj (applyTicketFieldExclusions tfe fes)) := by
              rw [lookupKey_setKey, if_pos rfl, hf]
              rfl
            rw [getAt_obj_key_some _ _ _ _ hsetlookup,
              getAt_obj_key_some _ _ _ _ hfe]
            cases pos with
            | nil =>
              have htfe : tfe.isEmpty = true := by
                rw [hg] at h
                simpa using h
              rw [List.isEmpty_iff] at htfe
              subst htfe
              rfl
            | cons st pos2 =>
              cases st with
              | idx i => rw [getAt_obj_idx, getAt_obj_idx]
              | key mk =>
                have hany2 : (tfe.any fun mkps =>
                    mkps.1 == mk && mkps.2.any fun p =>
                      touchesPath (p.splitOn ".") pos2) = false := by
                  rw [hg] at h
                  simpa using h
                have hall : ∀ x ∈ tfe, x.1 = mk →
                    ∀ p ∈ x.2, touchesPath (p.splitOn ".") pos2 = false := by
                  intro x hx hx1 p hp
                  cases htp : touchesPath (p.splitOn ".") pos2
                  · rfl
                  · have hany : (tfe.any fun mkps =>
                        mkps.1 == mk && mkps.2.any fun q =>
                          touchesPath (q.splitOn ".") pos2) = true := by
                      rw [List.any_eq_true]
                      refine ⟨x, hx, ?_⟩
                      rw [Bool.and_eq_true]
                      exact ⟨by simp [hx1],
                        by rw [List.any_eq_true]; exact ⟨p, hp, htp⟩⟩
                    rw [hany] at hany2
                    cases hany2
                exact atfe_frame tfe fes mk pos2 hall
          · have hset : lookupKey g (setKey
                (applyGlobalExclusions gex entries) "fields"
                (JVal.obj (applyTicketFieldExclusions tfe fes)))
                = lookupKey g entries := by
              rw [lookupKey_setKey, if_neg hgf, hGlookup]
            cases hv : lookupKey g entries with
            | none =>
              rw [getAt_obj_key_none _ _ _ (hset.trans hv),
                getAt_obj_key_none _ _ _ hv]
            | some u =>
              rw [getAt_obj_key_some _ _ _ _ (hset.trans hv),
                getAt_obj_key_some _ _ _ _ hv]
        | arr its =>
          rw [process_one_eq_other gex tfe entries
            (fun fo hh => by rw [hf] at hh; simp at hh)]
          cases hv : lookupKey g entries with
          | none =>
            rw [getAt_obj_key_none _ _ _ (hGlookup.trans hv),
              getAt_obj_key_none _ _ _ hv]
          | some u =>
            rw [getAt_obj_key_some _ _ _ _ (hGlookup.trans hv),
              getAt_obj_key_some _ _ _ _ hv]
        | str s =>
          rw [process_one_eq_other gex tfe entries
            (fun fo hh => by rw [hf] at hh; simp at hh)]
          cases hv : lookupKey g entries with
          | none =>
            rw [getAt_obj_key_none _ _ _ (hGlookup.trans hv),
              getAt_obj_key_none _ _ _ hv]
          | some u =>
            rw [getAt_obj_key_some _ _ _ _ (hGlookup.trans hv),
              getAt_obj_key_some _ _ _ _ hv]
        | num n =>
          rw [process_one_eq_other gex tfe entries
            (fun fo hh => by rw [hf] at hh; simp at hh)]
          cases hv : lookupKey g entries with
          | none =>
            rw [getAt_obj_key_none _ _ _ (hGlookup.trans hv),
              getAt_obj_key_none _ _ _ hv]
          | some u =>
            rw [getAt_obj_key_some _ _ _ _ (hGlookup.trans hv),
              getAt_obj_key_some _ _ _ _ hv]
        | bool b =>
          rw [process_one_eq_other gex tfe entries
            (fun fo hh => by rw [hf] at hh; simp at hh)]
          cases hv : lookupKey g entries with
          | none =>
            rw [getAt_obj_key_none _ _ _ (hGlookup.trans hv),
              getAt_obj_key_none _ _ _ hv]
          | some u =>
            rw [getAt_obj_key_some _ _ _ _ (hGlookup.trans hv),
              getAt_obj_key_some _ _ _ _ hv]
        | null =>
          rw [process_one_eq_other gex tfe entries
            (fun fo hh => by rw [hf] at hh; simp at hh)]
          cases hv : lookupKey g entries with
          | none =>
            rw [getAt_obj_key_none _ _ _ (hGlookup.trans hv),
              getAt_obj_key_none _ _ _ hv]
          | some u =>
            rw [getAt_obj_key_some _ _ _ _ (hGlookup.trans hv),
              getAt_obj_key_some _ _ _ _ hv]

theorem noadd_of_G (gex : List String) (entries : List (String × JVal))
    (g : String) (pos : List Step) (w : JVal)
    (h : getAt (JVal.obj (applyGlobalExclusions gex entries))
      (Step.key g :: pos) = some w) :
    ∃ w0, getAt (JVal.obj entries) (Step.key g :: pos) = some w0
      ∧ (w.isScalar = true → w0 = w) := by
  cases hv : lookupKey g (applyGlobalExclusions gex entries) with
  | none =>
    rw [getAt_obj_key_none _ _ _ hv] at h
    cases h
  | some u =>
    rw [getAt_obj_key_some _ _ _ _ hv] at h
    obtain ⟨hve, _⟩ := gex_lookup_value gex g entries u hv
    exact ⟨w, by rw [getAt_obj_key_some _ _ _ _ hve]; exact h, fun _ => rfl⟩

theorem process_one_noadd (gex : List String)
    (tfe : List (String × List String)) (entries : List (String × JVal))
    (pos : List Step) (w : JVal)
    (h : getAt (JVal.obj (process_one_ticket gex tfe entries)) pos = some w) :
    ∃ w0, getAt (JVal.obj entries) pos = some w0
      ∧ (w.isScalar = true → w0 = w) := by
  cases pos with
  | nil =>
    rw [getAt_nil] at h
    cases h
    exact ⟨JVal.obj entries, getAt_nil _, by simp [JVal.isScalar]⟩
  | cons st pos =>
    cases st with
    | idx i =>
      have hsh : ∃ es2, JVal.obj (process_one_ticket gex tfe entries)
          = JVal.obj es2 := ⟨_, rfl⟩
      rw [getAt_obj_idx] at h
      cases h
    | key g =>
      cases hf : lookupKey "fields" (applyGlobalExclusions gex entries) with
      | none =>
        rw [process_one_eq_other gex tfe entries
          (fun fo hh => by rw [hf] at hh; exact Option.noConfusion hh)] at h
        exact noadd_of_G gex entries g pos w h
      | some v =>
        cases v with
        | obj fes =>
          rw [process_one_eq_fields gex tfe entries fes hf] at h
          by_cases hgf : g = "fields"
          · subst hgf
            have hsetlookup : lookupKey "fields" (setKey
                (applyGlobalExclusions gex entries) "fields"
                (JVal.obj (applyTicketFieldExclusions tfe fes)))
                = some (JVal.obj (applyTicketFieldExclusions tfe fes)) := by
              rw [lookupKey_setKey, if_pos rfl, hf]
              rfl
            rw [getAt_obj_key_some _ _ _ _ hsetlookup] at h
            obtain ⟨w0, hw0, hs0⟩ := atfe_noadd tfe fes pos w h
            obtain ⟨hfe, _⟩ := gex_lookup_value gex "fields" entries _ hf
            exact ⟨w0, by rw [getAt_obj_key_some _ _ _ _ hfe]; exact hw0, hs0⟩
          · have hset : lookupKey g (setKey
                (applyGlobalExclusions gex entries) "fields"
                (JVal.obj (applyTicketFieldExclusions tfe fes)))
                = lookupKey g (applyGlobalExclusions gex entries) := by
              rw [lookupKey_setKey, if_neg hgf]
            cases hv : lookupKey g (applyGlobalExclusions gex entries) with
            | none =>
              rw [getAt_obj_key_none _ _ _ (hset.trans hv)] at h
              cases h
            | some u =>
              rw [getAt_obj_key_some _ _ _ _ (hset.trans hv)] at h
              obtain ⟨hve, _⟩ := gex_lookup_value gex g entries u hv
              exact ⟨w, by rw [getAt_obj_key_some _ _ _ _ hve]; exact h,
                fun _ => rfl⟩
        | arr its =>
          rw [process_one_eq_other gex tfe entries
            (fun fo hh => by rw [hf] at hh; simp at hh)] at h
          exact noadd_of_G gex entries g pos w h
        | str s =>
          rw [process_one_eq_other gex tfe entries
            (fun fo hh => by rw [hf] at hh; simp at hh)] at h
          exact noadd_of_G gex entries g pos w h
        | num n =>
          rw [process_one_eq_other gex tfe entries
            (fun fo hh => by rw [hf] at hh; simp at hh)] at h
          exact noadd_of_G gex entries g pos w h
        | bool b =>
          rw [process_one_eq_other gex tfe entries
            (fun fo hh => by rw [hf] at hh; simp at hh)] at h
          exact noadd_of_G gex entries g pos w h
        | null =>
          rw [process_one_eq_other gex tfe entries
            (fun fo hh => by rw [hf] at hh; simp at hh)] at h
          exact noadd_of_G gex entries g pos w h

/-- C8.  Redaction only deletes.  For every ticket of the batch (at its
index), (a) every tree position outside `touchesConfig` — neither at nor
under a globally excluded key, not the `fields` spine, and not reached by
any configured dotted path at its position — reads exactly the same before
and after redaction, and (b) redaction never adds or rewrites: every
position readable after redaction was readable before, and every scalar
read afterwards is the very scalar that was there before. -/
theorem redaction_only_deletes (tickets : List JVal) (config : ProcessConfig)
    (i : Nat) (t : JVal) (pos : List Step)
    (hi : tickets.get? i = some t) :
    ∃ t2, (process_tickets_data tickets config).get? i = some t2 ∧
      (touchesConfig (config.global_key_exclusions.getD [])
          (config.ticket_field_exclusions.getD []) pos = false →
        getAt t2 pos = getAt t pos) ∧
      (∀ pos2 w, getAt t2 pos2 = some w →
        ∃ w0, getAt t pos2 = some w0 ∧ (w.isScalar = true → w0 = w)) := by
  by_cases he : tickets.isEmpty
  · refine ⟨t, ?_, fun _ => rfl, fun pos2 w hw => ⟨w, hw, fun _ => rfl⟩⟩
    have h1 : process_tickets_data tickets config = tickets := by
      simp only [process_tickets_data]
      rw [if_pos he]
    rw [h1]
    exact hi
  · by_cases hr : ((config.global_key_exclusions.getD []).isEmpty
        && (config.ticket_field_exclusions.getD []).isEmpty) = true
    · refine ⟨t, ?_, fun _ => rfl, fun pos2 w hw => ⟨w, hw, fun _ => rfl⟩⟩
      have h1 : process_tickets_data tickets config = tickets := by
        simp only [process_tickets_data]
        rw [if_neg he, if_pos hr]
      rw [h1]
      exact hi
    · have h1 : process_tickets_data tickets config
          = tickets.map (process_elem (config.global_key_exclusions.getD [])
              (config.ticket_field_exclusions.getD [])) := by
        simp only [process_tickets_data]
        rw [if_neg he, if_neg hr]
      refine ⟨process_elem (config.global_key_exclusions.getD [])
          (config.ticket_field_exclusions.getD []) t, ?_, ?_, ?_⟩
      · rw [h1, List.get?_map, hi]
        rfl
      · intro htc
        cases t with
        | obj entries => exact process_one_frame _ _ entries pos htc
        | arr its => rfl
        | str s => rfl
        | num n => rfl
        | bool b => rfl
        | null => rfl
      · intro pos2 w hw
        cases t with
        | obj entries => exact process_one_noadd _ _ entries pos2 w hw
        | arr its => exact ⟨w, hw, fun _ => rfl⟩
        | str s => exact ⟨w, hw, fun _ => rfl⟩
        | num n => exact ⟨w, hw, fun _ => rfl⟩
        | bool b => exact ⟨w, hw, fun _ => rfl⟩
        | null => exact ⟨w, hw, fun _ => rfl⟩

/-! ## Fetcher lemmas -/

theorem fetchLoop_zero (api : Nat → ApiResponse) (reqIdx s : Nat) (tot : Int)
    (acc : List JVal) :
    fetchLoop api 0 reqIdx s tot acc = (FetchResult.diverged, 0) := rfl

theorem fetchLoop_succ_err (api : Nat → ApiResponse) (fuel reqIdx s : Nat)
    (tot : Int) (acc : List JVal) (h : api reqIdx = ApiResponse.err) :
    fetchLoop api (fuel + 1) reqIdx s tot acc = (FetchResult.fail, 1) := by
  simp only [fetchLoop, h]

theorem fetchLoop_succ_ok (api : Nat → ApiResponse) (fuel reqIdx s : Nat)
    (tot : Int) (acc : List JVal) (issuesOpt : Option (List JVal))
    (totalOpt : Option Int) (h : api reqIdx = ApiResponse.ok issuesOpt totalOpt) :
    fetchLoop api (fuel + 1) reqIdx s tot acc
      = (if (((s + (issuesOpt.getD []).length : Nat) : Int)
            ≥ (if tot = -1 then totalOpt.getD 0 else tot)
          ∨ (issuesOpt.getD []).isEmpty) then
          (FetchResult.ok (acc ++ issuesOpt.getD []), 1)
        else
          ((fetchLoop api fuel (reqIdx + 1) (s + (issuesOpt.getD []).length)
              (if tot = -1 then totalOpt.getD 0 else tot)
              (acc ++ issuesOpt.getD [])).1,
            (fetchLoop api fuel (reqIdx + 1) (s + (issuesOpt.getD []).length)
              (if tot = -1 then totalOpt.getD 0 else tot)
              (acc ++ issuesOpt.getD [])).2 + 1)) := by
  simp only [fetchLoop, h]

theorem pagedApi_eq (records : List JVal) (P i : Nat) :
    pagedApi records P i
      = ApiResponse.ok (some ((records.drop (i * P)).take P))
          (some (records.length : Int)) := rfl

theorem fetchLoop_pagedApi (records : List JVal) (P : Nat) (hP : 0 < P) :
    ∀ (fuel j : Nat), j * P < records.length →
      records.length - j * P ≤ fuel →
      fetchLoop (pagedApi records P) fuel j (j * P)
          ((records.length : Int)) (records.take (j * P))
        = (FetchResult.ok records,
            (records.length - j * P + P - 1) / P) := by
  intro fuel
  induction fuel with
  | zero =>
    intro j hj hf
    omega
  | succ fuel ih =>
    intro j hj hf
    rw [fetchLoop_succ_ok _ _ _ _ _ _ _ _ (pagedApi_eq records P j)]
    simp only [Option.getD_some]
    have hlen : ((records.drop (j * P)).take P).length
        = min P (records.length - j * P) := by
      simp
    have htot : ¬((records.length : Int) = -1) := by omega
    rw [if_neg htot]
    by_cases hend : records.length ≤ j * P + P
    · have hmin : min P (records.length - j * P) = records.length - j * P := by
        omega
      rw [if_pos (Or.inl (by rw [hlen, hmin]; omega))]
      have hacc : records.take (j * P) ++ (records.drop (j * P)).take P
          = records := by
        rw [← List.take_add]
        exact List.take_of_length_le (by omega)
      rw [hacc]
      have hcount : (records.length - j * P + P - 1) / P = 1 := by
        have h1 : records.length - j * P + P - 1
            = (records.length - j * P - 1) + P := by omega
        rw [h1, Nat.add_div_right _ hP, Nat.div_eq_of_lt (by omega)]
      rw [hcount]
    · push_neg at hend
      have hmin : min P (records.length - j * P) = P := by omega
      have hcond : ¬((((j * P + ((records.drop (j * P)).take P).length
            : Nat) : Int) ≥ (records.length : Int))
          ∨ ((records.drop (j * P)).take P).isEmpty = true) := by
        intro hor
        cases hor with
        | inl hge =>
          rw [hlen, hmin] at hge
          omega
        | inr hemp =>
          rw [List.isEmpty_iff] at hemp
          have hlen2 := congrArg List.length hemp
          rw [hlen, hmin] at hlen2
          simp at hlen2
          omega
      rw [if_neg hcond]
      rw [hlen, hmin, ← List.take_add]
      have e1 : j * P + P = (j + 1) * P := by ring
      rw [e1]
      have hj2 : (j + 1) * P < records.length := by
        rw [← e1]
        omega
      have hf2 : records.length - (j + 1) * P ≤ fuel := by
        rw [← e1]
        omega
      rw [ih (j + 1) hj2 hf2]
      have hcount : (records.length - (j + 1) * P + P - 1) / P + 1
          = (records.length - j * P + P - 1) / P := by
        have g1 : records.length - (j + 1) * P + P - 1
            = records.length - j * P - 1 := by
          rw [← e1]
          omega
        have g2 : records.length - j * P + P - 1
            = (records.length - j * P - 1) + P := by omega
        rw [g1, g2, Nat.add_div_right _ hP]
      simp only
      rw [hcount]

/-- C1 (amended).  Against a transport that serves the `T` matching records
in order in pages of at most `P` records while reporting total `T`, the
fetcher returns exactly the `T` records in order (page order, then in-page
order) and issues exactly `max 1 (ceil (T / P))` paginated requests: when
`T = 0` the `while True` loop still issues one request (whose empty page
stops it), not zero. -/
theorem fetch_pagination (records : List JVal) (P fuel : Nat) (hP : 1 ≤ P)
    (hfuel : records.length + 1 ≤ fuel) :
    fetch_jira_tickets (some goodConfig) (pagedApi records P) fuel
      = (FetchResult.ok records,
          max 1 ((records.length + P - 1) / P)) := by
  have hguard : fetch_jira_tickets (some goodConfig) (pagedApi records P) fuel
      = fetchLoop (pagedApi records P) fuel 0 0 (-1) [] := rfl
  rw [hguard]
  obtain ⟨fuel2, rfl⟩ : ∃ f, fuel = f + 1 := ⟨fuel - 1, by omega⟩
  rw [fetchLoop_succ_ok _ _ _ _ _ _ _ _ (pagedApi_eq records P 0)]
  have hsimp : (if ((-1 : Int) = -1)
      then ((some (records.length : Int)).getD 0) else (-1 : Int))
      = (records.length : Int) := by simp
  rw [hsimp]
  simp only [Option.getD_some]
  have hdrop : (records.drop (0 * P)) = records := by simp
  rw [hdrop]
  have hlen : (records.take P).length = min P records.length := by simp
  by_cases hend : records.length ≤ P
  · have hmin : min P records.length = records.length := by omega
    rw [if_pos (Or.inl (by rw [hlen, hmin]; omega))]
    have hacc : ([] : List JVal) ++ records.take P = records := by
      rw [List.nil_append]
      exact List.take_of_length_le (by omega)
    rw [hacc]
    have hcount : max 1 ((records.length + P - 1) / P) = 1 := by
      cases hT : records.length with
      | zero =>
        have h0 : (0 + P - 1) / P = 0 := Nat.div_eq_of_lt (by omega)
        rw [h0]
        rfl
      | succ T2 =>
        have h1 : T2 + 1 + P - 1 = T2 + P := by omega
        rw [hT] at hend
        have h2 : (T2 + P) / P = 1 := by
          have hPP : 0 < P := by omega
          rw [Nat.add_div_right _ hPP, Nat.div_eq_of_lt (by omega)]
        rw [h1, h2]
        rfl
    rw [hcount]
  · push_neg at hend
    have hmin : min P records.length = P := by omega
    have hcond : ¬((((0 + (records.take P).length : Nat) : Int)
          ≥ ((records.length : Int)))
        ∨ (records.take P).isEmpty = true) := by
      intro hor
      cases hor with
      | inl hge =>
        rw [hlen, hmin] at hge
        omega
      | inr hemp =>
        rw [List.isEmpty_iff] at hemp
        have hlen2 := congrArg List.length hemp
        rw [hlen, hmin] at hlen2
        simp at hlen2
        omega
    rw [if_neg hcond]
    rw [hlen, hmin, List.nil_append]
    have e0 : (0 : Nat) + P = 1 * P := by ring
    have e1 : records.take P = records.take (1 * P) := by rw [one_mul]
    rw [e0, e1]
    have hj2 : 1 * P < records.length := by omega
    have hf2 : records.length - 1 * P ≤ fuel2 := by omega
    rw [fetchLoop_pagedApi records P (by omega) fuel2 1 hj2 hf2]
    have hcount : (records.length - 1 * P + P - 1) / P + 1
        = max 1 ((records.length + P - 1) / P) := by
      have g1 : records.length - 1 * P + P - 1 = records.length - 1 := by
        omega
      have g2 : records.length + P - 1 = (records.length - 1) + P := by
        omega
      have hPP : 0 < P := by omega
      rw [g1, g2, Nat.add_div_right _ hPP]
      have h1x : 1 ≤ (records.length - 1) / P + 1 := Nat.le_add_left 1 _
      exact (max_eq_right h1x).symm
    simp only
    rw [hcount]

/-- C1 counterexample.  With a total of `T = 0` matching records and page
size `P = 1`, the fetcher issues one request, not `ceil (0 / 1) = 0` as the
claim states: the loop always performs its first request before it can
observe the total. -/
theorem fetch_zero_total_one_request :
    (fetch_jira_tickets (some goodConfig) (pagedApi [] 1) 2).2 = 1
      ∧ ¬((fetch_jira_tickets (some goodConfig) (pagedApi [] 1) 2).2
          = (0 + 1 - 1) / 1) := by
  constructor
  · rfl
  · intro h
    rw [show (fetch_jira_tickets (some goodConfig) (pagedApi [] 1) 2).2 = 1
      from rfl] at h
    exact absurd h (by decide)

theorem fetchLoop_stops (api : Nat → ApiResponse) (N : Nat)
    (hstop : issuesOf (api N) = []) :
    ∀ (fuel i : Nat) (s : Nat) (tot : Int) (acc : List JVal), i ≤ N →
      N < i + fuel →
      (fetchLoop api fuel i s tot acc).1 ≠ FetchResult.diverged := by
  intro fuel
  induction fuel with
  | zero =>
    intro i s tot acc hiN hNf
    omega
  | succ fuel ih =>
    intro i s tot acc hiN hNf
    cases hapi : api i with
    | err =>
      rw [fetchLoop_succ_err _ _ _ _ _ _ hapi]
      simp
    | ok issuesOpt totalOpt =>
      rw [fetchLoop_succ_ok _ _ _ _ _ _ _ _ hapi]
      by_cases hc : ((((s + (issuesOpt.getD []).length : Nat) : Int)
            ≥ (if tot = -1 then totalOpt.getD 0 else tot))
          ∨ (issuesOpt.getD []).isEmpty = true)
      · rw [if_pos hc]
        simp
      · rw [if_neg hc]
        have hne : i ≠ N := by
          intro hiN2
          subst hiN2
          rw [hapi] at hstop
          simp only [issuesOf] at hstop
          exact hc (Or.inr (by rw [hstop]; rfl))
        have := ih (i + 1) (s + (issuesOpt.getD []).length)
          (if tot = -1 then totalOpt.getD 0 else tot)
          (acc ++ issuesOpt.getD []) (by omega) (by omega)
        simpa using this

/-- C3.  The pagination loop terminates on every response sequence that
eventually serves an empty page (in particular when the API reports a total
larger than it ever delivers): fuel `N + 1` suffices when request `N` gets
an empty page or fails.  And the loop exits immediately — one request, no
recursion — as soon as the advanced offset reaches the expected total, or
the page is empty. -/
theorem fetch_loop_terminates (api : Nat → ApiResponse) (N : Nat)
    (hstop : issuesOf (api N) = []) :
    (∀ (config : Option FetchConfig) (fuel : Nat), N + 1 ≤ fuel →
      (fetch_jira_tickets config api fuel).1 ≠ FetchResult.diverged) ∧
    (∀ (fuel i s : Nat) (tot : Int) (acc : List JVal)
        (issuesOpt : Option (List JVal)) (totalOpt : Option Int),
      api i = ApiResponse.ok issuesOpt totalOpt →
      (((s + (issuesOpt.getD []).length : Nat) : Int)
        ≥ (if tot = -1 then totalOpt.getD 0 else tot)) →
      fetchLoop api (fuel + 1) i s tot acc
        = (FetchResult.ok (acc ++ issuesOpt.getD []), 1)) := by
  constructor
  · intro config fuel hfuel
    cases config with
    | none => simp [fetch_jira_tickets]
    | some cfg =>
      simp only [fetch_jira_tickets]
      by_cases hguard : (pyTruthy cfg.access_token
          && pyTruthy cfg.jira_base_url && pyTruthy cfg.jql_query) = true
      · rw [if_pos hguard]
        exact fetchLoop_stops api N hstop fuel 0 0 (-1) []
          (Nat.zero_le N) (by omega)
      · rw [if_neg hguard]
        simp
  · intro fuel i s tot acc issuesOpt totalOpt hapi hge
    rw [fetchLoop_succ_ok _ _ _ _ _ _ _ _ hapi, if_pos (Or.inl hge)]

theorem fetchLoop_err_fail (api : Nat → ApiResponse) :
    ∀ (fuel i : Nat) (s : Nat) (tot : Int) (acc : List JVal) (j : Nat),
      i ≤ j → j < i + (fetchLoop api fuel i s tot acc).2 →
      api j = ApiResponse.err →
      (fetchLoop api fuel i s tot acc).1 = FetchResult.fail := by
  intro fuel
  induction fuel with
  | zero =>
    intro i s tot acc j h1 h2 _
    rw [fetchLoop_zero] at h2
    simp at h2
    omega
  | succ fuel ih =>
    intro i s tot acc j h1 h2 herr
    cases hapi : api i with
    | err =>
      rw [fetchLoop_succ_err _ _ _ _ _ _ hapi]
    | ok issuesOpt totalOpt =>
      rw [fetchLoop_succ_ok _ _ _ _ _ _ _ _ hapi] at h2 ⊢
      by_cases hc : ((((s + (issuesOpt.getD []).length : Nat) : Int)
            ≥ (if tot = -1 then totalOpt.getD 0 else tot))
          ∨ (issuesOpt.getD []).isEmpty = true)
      · rw [if_pos hc] at h2 ⊢
        exfalso
        simp at h2
        have hji : j = i := by omega
        rw [hji, hapi] at herr
        cases herr
      · rw [if_neg hc] at h2 ⊢
        simp only at h2 ⊢
        by_cases hji : j = i
        · exfalso
          rw [hji, hapi] at herr
          cases herr
        · exact ih (i + 1) (s + (issuesOpt.getD []).length)
            (if tot = -1 then totalOpt.getD 0 else tot)
            (acc ++ issuesOpt.getD []) j (by omega) (by omega) herr

/-- C4.  All-or-nothing: if any request the fetcher actually issues fails
(transport error, timeout, non-2xx status or unparsable body — all modelled
by `ApiResponse.err`), the whole operation returns the single `None`
sentinel (`FetchResult.fail`), which carries no partial batch, however many
pages were already fetched. -/
theorem fetch_all_or_nothing (config : Option FetchConfig)
    (api : Nat → ApiResponse) (fuel : Nat)
    (hfail : ∃ j, j < (fetch_jira_tickets config api fuel).2
      ∧ api j = ApiResponse.err) :
    (fetch_jira_tickets config api fuel).1 = FetchResult.fail := by
  obtain ⟨j, hj, herr⟩ := hfail
  cases config with
  | none =>
    simp [fetch_jira_tickets] at hj
  | some cfg =>
    simp only [fetch_jira_tickets] at hj ⊢
    by_cases hguard : (pyTruthy cfg.access_token
        && pyTruthy cfg.jira_base_url && pyTruthy cfg.jql_query) = true
    · rw [if_pos hguard] at hj ⊢
      exact fetchLoop_err_fail api fuel 0 0 (-1) [] j (Nat.zero_le j)
        (by omega) herr
    · rw [if_neg hguard] at hj
      simp at hj

theorem fetchLoopV0_eq (api : Nat → ApiResponse) :
    ∀ (fuel reqIdx s : Nat) (tot : Int) (acc : List JVal),
      fetchLoopV0 api fuel reqIdx s tot acc
        = fetchLoop api fuel reqIdx s tot acc := by
  intro fuel
  induction fuel with
  | zero => intro reqIdx s tot acc; rfl
  | succ fuel ih =>
    intro reqIdx s tot acc
    simp only [fetchLoopV0, fetchLoop, ih]

/-- C10.  Both source files define `fetch_jira_tickets`; for every
configuration, every transport response sequence and every fuel, the older
copy (`src/jira-fetch/jira-ticket-fetcher.py`) and the current one
(`src/jira-ticket-fetcher.py`) return the same result and issue the same
number of requests — the two differ only in diagnostic printing. -/
theorem fetch_versions_agree :
    ∀ (config : Option FetchConfig) (api : Nat → ApiResponse) (fuel : Nat),
      fetch_jira_tickets_v0 config api fuel
        = fetch_jira_tickets config api fuel := by
  intro config api fuel
  cases config with
  | none => rfl
  | some cfg =>
    simp only [fetch_jira_tickets_v0, fetch_jira_tickets]
    by_cases hguard : (pyTruthy cfg.access_token
        && pyTruthy cfg.jira_base_url && pyTruthy cfg.jql_query) = true
    · rw [if_pos hguard, if_pos hguard, fetchLoopV0_eq]
    · rw [if_neg hguard, if_neg hguard]

/-! ## Writer lemmas -/

theorem chunks_join (N : Nat) (hN : 0 < N) :
    ∀ (l : List JVal),
      ((List.range ((l.length + N - 1) / N)).map
        (fun i => (l.drop (i * N)).take N)).join = l := by
  have key : ∀ (n : Nat) (l : List JVal), l.length ≤ n →
      ((List.range ((l.length + N - 1) / N)).map
        (fun i => (l.drop (i * N)).take N)).join = l := by
    intro n
    induction n with
    | zero =>
      intro l hl
      have hnil : l = [] := by
        cases l with
        | nil => rfl
        | cons a l2 => simp at hl
      subst hnil
      rw [show (([] : List JVal).length + N - 1) / N = 0 from
        Nat.div_eq_of_lt (by simp; omega)]
      rfl
    | succ n ih =>
      intro l hl
      by_cases hl0 : l.length = 0
      · have hnil : l = [] := by
          cases l with
          | nil => rfl
          | cons a l2 => simp at hl0
        subst hnil
        rw [show (([] : List JVal).length + N - 1) / N = 0 from
          Nat.div_eq_of_lt (by simp; omega)]
        rfl
      · have hk : (l.length + N - 1) / N = (l.length - 1) / N + 1 := by
          have e : l.length + N - 1 = (l.length - 1) + N := by omega
          rw [e, Nat.add_div_right _ hN]
        rw [hk, List.range_succ_eq_map, List.map_cons,
          show ∀ (a : List JVal) (ls : List (List JVal)),
            (a :: ls).join = a ++ ls.join from fun _ _ => rfl,
          List.map_map]
        have hhead : (l.drop (0 * N)).take N = l.take N := by simp
        rw [hhead]
        have hcnt : (l.length - 1) / N = ((l.drop N).length + N - 1) / N := by
          rw [List.length_drop]
          by_cases hln : l.length ≤ N
          · rw [Nat.div_eq_of_lt (by omega),
              show l.length - N = 0 from by omega]
            rw [Nat.div_eq_of_lt (by omega)]
          · congr 1
            omega
        have hfun : ((fun i => (l.drop (i * N)).take N) ∘ Nat.succ)
            = fun i => ((l.drop N).drop (i * N)).take N := by
          funext i
          show (l.drop (Nat.succ i * N)).take N
            = ((l.drop N).drop (i * N)).take N
          rw [List.drop_drop]
          have e : Nat.succ i * N = i * N + N := Nat.succ_mul i N
          rw [e, Nat.add_comm (i * N) N]
        rw [hcnt, hfun, ih (l.drop N) (by rw [List.length_drop]; omega)]
        exact List.take_append_drop N l
  exact fun l => key l.length l le_rfl

theorem save_tickets_chunked_eq (tickets : List JVal) (base : String)
    (N : Nat) (hN : 0 < N) (h0 : 0 < tickets.length) :
    save_tickets (some tickets)
        (some ⟨some base, some "json", some (N : Int)⟩)
      = (List.range ((tickets.length + N - 1) / N)).map
          (fun i => (base ++ toString (i + 1) ++ "." ++ "json",
            (tickets.drop (i * N)).take N)) := by
  simp only [save_tickets, Option.getD_some]
  rw [if_neg (show ¬((N : Int) ≤ 0) by omega)]
  show (if 0 < tickets.length then
      if pyLower "json" = "json" then
        (List.range ((tickets.length + ((N : Int)).toNat - 1)
            / ((N : Int)).toNat)).map
          (fun i => (base ++ toString (i + 1) ++ "." ++ pyLower "json",
            (tickets.drop (i * ((N : Int)).toNat)).take ((N : Int)).toNat))
      else []
    else if pyLower "json" = "json" then
      [(base ++ "." ++ pyLower "json", tickets)]
    else []) = _
  rw [if_pos h0, if_pos (show pyLower "json" = "json" from rfl)]
  rw [show ((N : Int)).toNat = N from rfl]
  rw [show pyLower "json" = "json" from rfl]

/-- C7 (amended).  For a non-empty batch and a valid positive
`tickets_per_file = N`, the writer performs exactly `ceil (total / N)`
writes, the i-th (from 0) to the file `{base}{i+1}.json` holding the
contiguous slice of `N` tickets starting at offset `i * N`; every chunk
holds at most `N` tickets, and concatenating the chunks in file-index order
rebuilds the batch.  An empty batch instead falls back to the single
unnumbered file (see the counterexample). -/
theorem save_tickets_chunking (tickets : List JVal) (base : String) (N : Nat)
    (hN : 0 < N) (h0 : 0 < tickets.length) :
    save_tickets (some tickets)
        (some ⟨some base, some "json", some (N : Int)⟩)
      = (List.range ((tickets.length + N - 1) / N)).map
          (fun i => (base ++ toString (i + 1) ++ "." ++ "json",
            (tickets.drop (i * N)).take N)) ∧
    (∀ w ∈ save_tickets (some tickets)
        (some ⟨some base, some "json", some (N : Int)⟩),
      w.2.length ≤ N) ∧
    ((save_tickets (some tickets)
        (some ⟨some base, some "json", some (N : Int)⟩)).map Prod.snd).join
      = tickets := by
  have heq := save_tickets_chunked_eq tickets base N hN h0
  refine ⟨heq, ?_, ?_⟩
  · intro w hw
    rw [heq] at hw
    obtain ⟨i, hi, rfl⟩ := List.mem_map.mp hw
    simp [List.length_take]
  · rw [heq, List.map_map]
    have hfun : (Prod.snd ∘ fun i =>
        ((base ++ toString (i + 1) ++ "." ++ "json",
          (tickets.drop (i * N)).take N) : String × List JVal))
        = fun i => (tickets.drop (i * N)).take N := rfl
    rw [hfun]
    exact chunks_join N hN tickets

/-- C7 counterexample.  An empty batch with a valid positive
`tickets_per_file` is not split into `ceil (0 / N) = 0` numbered files: the
code takes the single-file branch and writes one unnumbered
`jira_tickets.json` holding the empty array. -/
theorem save_empty_batch_single_file :
    save_tickets (some [])
        (some ⟨some "jira_tickets", some "json", some 20⟩)
      = [("jira_tickets.json", ([] : List JVal))]
    ∧ ¬((save_tickets (some [])
        (some ⟨some "jira_tickets", some "json", some 20⟩)).length
          = (0 + 20 - 1) / 20) := by
  constructor
  · rfl
  · intro h
    rw [show (save_tickets (some [])
        (some ⟨some "jira_tickets", some "json", some 20⟩)).length = 1
      from rfl] at h
    exact absurd h (by decide)

/-! ## Witnesses: the hypothesis-bearing claim theorems at concrete inputs -/

/-- Witness for `fetch_pagination`: three records served in pages of two are
fetched in full with exactly two requests. -/
theorem fetch_pagination_witness :
    1 ≤ 2 ∧
    ([JVal.num 1, JVal.num 2, JVal.num 3] : List JVal).length + 1 ≤ 4 ∧
    fetch_jira_tickets (some goodConfig)
        (pagedApi [JVal.num 1, JVal.num 2, JVal.num 3] 2) 4
      = (FetchResult.ok [JVal.num 1, JVal.num 2, JVal.num 3],
          max 1 ((([JVal.num 1, JVal.num 2, JVal.num 3] : List JVal).length
            + 2 - 1) / 2)) :=
  ⟨by decide, by decide,
    fetch_pagination [JVal.num 1, JVal.num 2, JVal.num 3] 2 4
      (by decide) (by decide)⟩

/-- Witness for `fetch_loop_terminates`: against an API whose first page is
already empty, one unit of fuel suffices and the loop does not diverge. -/
theorem fetch_loop_terminates_witness :
    (fetch_jira_tickets (some goodConfig)
        (fun _ => ApiResponse.ok (some []) (some 5)) 1).1
      ≠ FetchResult.diverged :=
  (fetch_loop_terminates (fun _ => ApiResponse.ok (some []) (some 5)) 0
    rfl).1 (some goodConfig) 1 (by decide)

/-- Witness for `fetch_all_or_nothing`: when the very first request fails,
the fetcher returns the failure sentinel. -/
theorem fetch_all_or_nothing_witness :
    (fetch_jira_tickets (some goodConfig) (fun _ => ApiResponse.err) 3).1
      = FetchResult.fail :=
  fetch_all_or_nothing (some goodConfig) (fun _ => ApiResponse.err) 3
    ⟨0, by decide, rfl⟩

/-- Witness for `save_tickets_chunking`: five tickets at two per file are
written so that the chunks concatenate back to the original batch. -/
theorem save_tickets_chunking_witness :
    ((save_tickets
        (some [JVal.num 1, JVal.num 2, JVal.num 3, JVal.num 4, JVal.num 5])
        (some ⟨some "jira_tickets", some "json", some (2 : Int)⟩)).map
          Prod.snd).join
      = [JVal.num 1, JVal.num 2, JVal.num 3, JVal.num 4, JVal.num 5] :=
  (save_tickets_chunking
    [JVal.num 1, JVal.num 2, JVal.num 3, JVal.num 4, JVal.num 5]
    "jira_tickets" 2 (by decide) (by decide)).2.2

/-- Witness for `redaction_only_deletes`: on a ticket
`{"self": "x", "key": "K"}` with global exclusion `["self"]`, the position
`key` (untouched by the config) reads the same after redaction, and nothing
is added. -/
theorem redaction_only_deletes_witness :
    ∃ t2, (process_tickets_data
        [JVal.obj [("self", JVal.str "x"), ("key", JVal.str "K")]]
        ⟨some ["self"], some []⟩).get? 0 = some t2 ∧
      (touchesConfig ["self"] ([] : List (String × List String))
          [Step.key "key"] = false →
        getAt t2 [Step.key "key"]
          = getAt (JVal.obj [("self", JVal.str "x"), ("key", JVal.str "K")])
              [Step.key "key"]) ∧
      (∀ pos2 w, getAt t2 pos2 = some w →
        ∃ w0, getAt (JVal.obj [("self", JVal.str "x"), ("key", JVal.str "K")])
            pos2 = some w0 ∧ (w.isScalar = true → w0 = w)) :=
  redaction_only_deletes
    [JVal.obj [("self", JVal.str "x"), ("key", JVal.str "K")]]
    ⟨some ["self"], some []⟩ 0
    (JVal.obj [("self", JVal.str "x"), ("key", JVal.str "K")])
    [Step.key "key"] rfl

/-- Witness for `process_skips_non_dict`: a bare number in the batch passes
through the redactor unchanged. -/
theorem process_skips_non_dict_witness :
    (process_tickets_data [JVal.num 7] ⟨some ["self"], some []⟩).get? 0
      = some (JVal.num 7) :=
  process_skips_non_dict [JVal.num 7] ⟨some ["self"], some []⟩ 0 (JVal.num 7)
    rfl rfl

end Jira
